import Mathlib

/-! Pig (bnixon67/gopig): a shallow embedding of `pig.go`.

The program is a two-player console game of Pig.  Its only contact with the
outside world is through three channels, which the embedding makes explicit:

* `rng`    : the values that successive calls of `rand.Intn` return;
* `stdin`  : the results of successive `reader.ReadString('\n')` calls, each a
             pair of the text read and whether `err != nil` (every call is made
             on a fresh `bufio.Reader`; how such a reader cuts the byte stream
             into these results is not modelled);
* `stdout` : the messages printed so far, oldest first, as structured events
             (the exact wording and number formatting are not modelled).

A finite list stands for a prefix of the real, unbounded stream: when a function
needs a value beyond the end of its list it stops with `Halt.noInput` or
`Halt.noRandom`.  Go's `int` is modelled by `Int`; a turn total can only leave
the 64-bit range after more than `2^63 / 6` rolls in one turn, so wrap-around
is not modelled.
-/

namespace Pig

/-! ## Text helpers (Go standard library) -/

/-- Go `unicode.IsSpace`: the Latin-1 spaces `\t \n \v \f \r`, space, U+0085,
U+00A0, and beyond Latin-1 the code points with the White_Space property. -/
def isSpace (c : Char) : Bool :=
  let n := c.toNat
  (0x09 ≤ n && n ≤ 0x0D) || n == 0x20 || n == 0x85 || n == 0xA0 || n == 0x1680 ||
  (0x2000 ≤ n && n ≤ 0x200A) || n == 0x2028 || n == 0x2029 || n == 0x202F ||
  n == 0x205F || n == 0x3000

/-- Characters of a text with leading and trailing white space removed. -/
def trimChars (cs : List Char) : List Char :=
  ((cs.dropWhile isSpace).reverse.dropWhile isSpace).reverse

/-- Go `strings.TrimSpace`: the text without leading and trailing white space. -/
def trimSpace (s : String) : String :=
  ⟨trimChars s.data⟩

/-! ## The outside world -/

/-- One result of `reader.ReadString('\n')`: the text returned and whether the
returned error was non-nil. -/
structure ReadResult where
  text : String
  failed : Bool
  deriving DecidableEq, Repr

/-- A line that was read without error. -/
def line (s : String) : ReadResult := ⟨s, false⟩

/-- A read that returned an error (for instance end of file). -/
def readError : ReadResult := ⟨"", true⟩

/-- Messages the program prints, one constructor per message of `pig.go`. -/
inductive Event where
  | rules
  | namePrompt (num : Int)
  | nameReadError
  | nameEmpty
  | playerName (num : Int) (name : String)
  | holdPrompt
  | responseReadError
  | invalidResponse
  | turnStart (name : String)
  | busted (name : String)
  | rolled (name : String) (roll turnTotal potential : Int)
  | currentScore (name : String) (score : Int)
  | wins (name : String) (score : Int)
  deriving DecidableEq, Repr

/-- Reasons for which a run of the model stops without a result. -/
inductive Halt where
  | noInput
  | noRandom
  | panic
  | outOfFuel
  deriving DecidableEq, Repr

deriving instance DecidableEq for Except

/-! ## `roll` -/

/-- Source `roll(sides)`: `rand.Intn(sides) + 1`, where `g` is the value that
`rand.Intn(sides)` returns; `rand.Intn` panics when `sides <= 0`. -/
def roll (sides : Int) (g : Int) : Except Halt Int :=
  if sides ≤ 0 then .error .panic else .ok (g + 1)

/-! ## `askHold` -/

/-- Source `askHold`: print the prompt, read a response, and repeat until the
trimmed response is `h` (hold, `true`) or `r` (roll, `false`). Returns the
answer, the unread input and the messages printed by this call. -/
def askHold : List ReadResult → Except Halt (Bool × List ReadResult × List Event)
  | [] => .error .noInput
  | r :: stdin =>
    if r.failed then
      match askHold stdin with
      | .error e => .error e
      | .ok (hold, rest, out) =>
        .ok (hold, rest, Event.holdPrompt :: Event.responseReadError :: out)
    else
      let response := trimSpace r.text
      if response = "h" then .ok (true, stdin, [Event.holdPrompt])
      else if response = "r" then .ok (false, stdin, [Event.holdPrompt])
      else
        match askHold stdin with
        | .error e => .error e
        | .ok (hold, rest, out) =>
          .ok (hold, rest, Event.holdPrompt :: Event.invalidResponse :: out)

/-! ## `getPlayerName` -/

/-- Source `getPlayerName(num)`: prompt and read until a line is read without
error whose trimmed text is not empty; that trimmed text is the name. -/
def getPlayerName (num : Int) : List ReadResult →
    Except Halt (String × List ReadResult × List Event)
  | [] => .error .noInput
  | r :: stdin =>
    if r.failed then
      match getPlayerName num stdin with
      | .error e => .error e
      | .ok (name, rest, out) =>
        .ok (name, rest, Event.namePrompt (num + 1) :: Event.nameReadError :: out)
    else
      let name := trimSpace r.text
      if name = "" then
        match getPlayerName num stdin with
        | .error e => .error e
        | .ok (name, rest, out) =>
          .ok (name, rest, Event.namePrompt (num + 1) :: Event.nameEmpty :: out)
      else .ok (name, stdin, [Event.namePrompt (num + 1)])

/-! ## `playTurn` -/

/-- What one call of `playTurn` leaves behind: the value it returns, the unused
generator values, the unread input and the messages it printed. -/
structure TurnResult where
  turnTotal : Int
  rng : List Int
  stdin : List ReadResult
  out : List Event
  deriving DecidableEq, Repr

/-- The loop `for hold := false; !hold;` of `playTurn`, entered with the current
value of `turnTotal`. Each iteration takes one generator value through
`roll(6)`; a roll of 1 sets the total to 0 and leaves the loop, any other roll
is added, displayed, and followed by `askHold`. -/
def playTurnLoop (name : String) (score : Int) :
    Int → List Int → List ReadResult → Except Halt TurnResult
  | _, [], _ => .error .noRandom
  | turnTotal, g :: rng, stdin =>
    match roll 6 g with
    | .error e => .error e
    | .ok r =>
      if r = 1 then .ok ⟨0, rng, stdin, [Event.busted name]⟩
      else
        let turnTotal := turnTotal + r
        match askHold stdin with
        | .error e => .error e
        | .ok (hold, stdin, asked) =>
          let out := Event.rolled name r turnTotal (score + turnTotal) :: asked
          if hold then .ok ⟨turnTotal, rng, stdin, out⟩
          else
            match playTurnLoop name score turnTotal rng stdin with
            | .error e => .error e
            | .ok res => .ok { res with out := out ++ res.out }

/-- Source `playTurn(name, score)`: start with a turn total of 0, announce the
turn and run the roll loop; the value returned is the final `turnTotal`. -/
def playTurn (name : String) (score : Int) (rng : List Int) (stdin : List ReadResult) :
    Except Halt TurnResult :=
  match playTurnLoop name score 0 rng stdin with
  | .error e => .error e
  | .ok res => .ok { res with out := Event.turnStart name :: res.out }

/-! ## `main` -/

/-- Source `Player` (declared inside `main`). -/
structure Player where
  name : String
  score : Int
  deriving DecidableEq, Repr

/-- Source `var player [2]Player`, indexed by `Fin 2`. -/
structure Players where
  p0 : Player
  p1 : Player
  deriving DecidableEq, Repr

/-- Array read `player[num]`. -/
def Players.get (ps : Players) : Fin 2 → Player
  | 0 => ps.p0
  | 1 => ps.p1

/-- Array write `player[num] = p`. -/
def Players.set (ps : Players) : Fin 2 → Player → Players
  | 0, p => { ps with p0 := p }
  | 1, p => { ps with p1 := p }

/-- History entry for one completed turn (not program state): who played, the
array just before the turn, and the value `playTurn` returned. -/
structure TurnRecord where
  num : Fin 2
  before : Players
  total : Int
  deriving DecidableEq, Repr

/-- State of `main` between turns: the player array, the three channels, and
the history of completed turns, oldest first. -/
structure Game where
  player : Players
  rng : List Int
  stdin : List ReadResult
  stdout : List Event
  turns : List TurnRecord
  deriving DecidableEq, Repr

/-- How far a run of the game loop got. `running`: no winner yet; `won`:
`winner = true`, the loops are left; `halted`: the model stopped because a
script or the fuel ran out, with the state before the unfinished turn. -/
inductive Status where
  | running
  | won
  | halted (h : Halt)
  deriving DecidableEq, Repr

/-- Body of the inner loop of `main` for player `num`: play the turn, add the
returned value to the score, print the score, and declare the player winner
when the score is 100 or more. -/
def turn (num : Fin 2) (g : Game) : Game × Status :=
  match playTurn (g.player.get num).name (g.player.get num).score g.rng g.stdin with
  | .error e => (g, .halted e)
  | .ok res =>
    let p : Player := { g.player.get num with score := (g.player.get num).score + res.turnTotal }
    let player := g.player.set num p
    let out := g.stdout ++ res.out ++ [Event.currentScore p.name p.score]
    let turns := g.turns ++ [⟨num, g.player, res.turnTotal⟩]
    if p.score ≥ 100 then
      (⟨player, res.rng, res.stdin, out ++ [Event.wins p.name p.score], turns⟩, .won)
    else
      (⟨player, res.rng, res.stdin, out, turns⟩, .running)

/-- The inner loop `for num := 0; num < len(player); num++` of `main`, over the
indices still to be visited; a winner leaves it at once (`break`). -/
def playRound : List (Fin 2) → Game → Game × Status
  | [], g => (g, .running)
  | num :: nums, g =>
    match turn num g with
    | (g1, .running) => playRound nums g1
    | stopped => stopped

/-- The outer loop `for winner := false; !winner;` of `main`: rounds over the
players 0, 1 until a round ends with a winner. `fuel` bounds the number of
rounds. -/
def gameLoop : Nat → Game → Game × Status
  | 0, g => (g, .halted .outOfFuel)
  | fuel + 1, g =>
    match playRound [0, 1] g with
    | (g1, .running) => gameLoop fuel g1
    | stopped => stopped

/-- The name loop of `main`: `player[num].name = getPlayerName(num)` for the
given indices, each followed by the confirmation message. -/
def readNames : List (Fin 2) → Players → List ReadResult →
    Except Halt (Players × List ReadResult × List Event)
  | [], ps, stdin => .ok (ps, stdin, [])
  | num :: nums, ps, stdin =>
    match getPlayerName num.val stdin with
    | .error e => .error e
    | .ok (name, stdin, out) =>
      let ps := ps.set num { ps.get num with name := name }
      match readNames nums ps stdin with
      | .error e => .error e
      | .ok (ps, stdin, out2) =>
        .ok (ps, stdin, out ++ [Event.playerName (num.val + 1) name] ++ out2)

/-- Game state when the game loop of `main` is entered with the given player
array: nothing played yet. -/
def startGame (ps : Players) (rng : List Int) (stdin : List ReadResult)
    (stdout : List Event) : Game :=
  ⟨ps, rng, stdin, stdout, []⟩

/-- Source `main`: a zero-valued player array, the rules, the two names, then
the game loop. -/
def main (fuel : Nat) (rng : List Int) (stdin : List ReadResult) : Game × Status :=
  let player : Players := ⟨⟨"", 0⟩, ⟨"", 0⟩⟩
  match readNames [0, 1] player stdin with
  | .error e => (startGame player rng stdin [Event.rules], .halted e)
  | .ok (player, stdin, out) =>
    gameLoop fuel (startGame player rng stdin (Event.rules :: out))

/-! ## Vocabulary for stating the properties -/

/-- Generator script under which the successive `roll(6)` calls return the
given die outcomes (`roll` adds 1 to the generator value). -/
def rngFor (outcomes : List Int) : List Int :=
  outcomes.map (fun d => d - 1)

/-- The hold/roll decisions carried by an input script, in order: a line read
without error that trims to `h` is a hold (`true`), one that trims to `r` is a
roll (`false`); failed reads and all other lines carry no decision. -/
def decisions : List ReadResult → List Bool
  | [] => []
  | r :: rs =>
    if r.failed then decisions rs
    else if trimSpace r.text = "h" then true :: decisions rs
    else if trimSpace r.text = "r" then false :: decisions rs
    else decisions rs

/-- A read result that `askHold` does not accept: a failed read, or a line that
trims to neither `h` nor `r`. -/
def rejected (r : ReadResult) : Bool :=
  r.failed || (trimSpace r.text != "h" && trimSpace r.text != "r")

/-- The turn totals displayed by the `rolled` messages of an output, in order. -/
def displayedTotals : List Event → List Int
  | [] => []
  | Event.rolled _ _ t _ :: es => t :: displayedTotals es
  | _ :: es => displayedTotals es

/-- The messages `askHold` prints for a run of rejected read results: a prompt
and a complaint for each. -/
def reprompts : List ReadResult → List Event
  | [] => []
  | r :: rs =>
    Event.holdPrompt ::
      (if r.failed then Event.responseReadError else Event.invalidResponse) :: reprompts rs

/-- Every generator value is one that `rand.Intn(6)` can return, so that every
die outcome lies in 1..6. -/
@[reducible] def FairDice (rng : List Int) : Prop :=
  ∀ g ∈ rng, 0 ≤ g ∧ g ≤ 5

/-- Sum of the values `playTurn` returned in the turns of player `i`. -/
def banked (turns : List TurnRecord) (i : Fin 2) : Int :=
  ((turns.filter (fun r => decide (r.num = i))).map TurnRecord.total).sum

/-- The turns of a history are played by 0, 1, 0, 1, ... -/
@[reducible] def RoundRobin (turns : List TurnRecord) : Prop :=
  ∀ (n : Nat) (rec : TurnRecord), turns[n]? = some rec → rec.num.val = n % 2

/-- What a turn did, apart from prompts and complaints: the value returned, the
generator values left unused (hence the number of rolls made), the turn totals
displayed, and the decisions still waiting in the unread input. -/
def turnView (res : TurnResult) : Int × List Int × List Int × List Bool :=
  (res.turnTotal, res.rng, displayedTotals res.out, decisions res.stdin)

/-- Scores below 100 before every turn: the invariant of the game loop, and
what it gives when the loop stops. -/
@[reducible] def BelowAtTurnStart (g : Game) : Prop :=
  (∀ i, (g.player.get i).score < 100) ∧
  ∀ rec ∈ g.turns, ∀ i, (rec.before.get i).score < 100

/-- How the game loop can stop when every turn started below 100: with a
winner, who played the last turn and alone has 100 or more, or without a
winner and both scores below 100. -/
@[reducible] def StoppedProperly (r : Game × Status) : Prop :=
  (∀ rec ∈ r.1.turns, ∀ i, (rec.before.get i).score < 100) ∧
  (r.2 = .won → ∃ rec, r.1.turns.getLast? = some rec ∧
      r.1.stdout.getLast? = some (Event.wins (r.1.player.get rec.num).name
        (r.1.player.get rec.num).score) ∧
      100 ≤ (r.1.player.get rec.num).score ∧
      ∀ i, i ≠ rec.num → (r.1.player.get i).score < 100 ∧
        (r.1.player.get i).score < (r.1.player.get rec.num).score) ∧
  (r.2 ≠ .won → ∀ i, (r.1.player.get i).score < 100)

/-- A read result that `getPlayerName` does not accept: a failed read, or a
line whose trimmed text is empty (an empty or whitespace-only line). -/
def rejectedName (r : ReadResult) : Bool :=
  r.failed || trimSpace r.text == ""

/-- The messages `getPlayerName(num)` prints for a run of rejected read
results: a prompt and a complaint for each. -/
def nameReprompts (num : Int) : List ReadResult → List Event
  | [] => []
  | r :: rs =>
    Event.namePrompt (num + 1) ::
      (if r.failed then Event.nameReadError else Event.nameEmpty) :: nameReprompts num rs

/-- A text that is not empty and neither starts nor ends with white space. -/
@[reducible] def ProperName (name : String) : Prop :=
  name ≠ "" ∧
  (∀ c, name.data.head? = some c → isSpace c = false) ∧
  (∀ c, name.data.getLast? = some c → isSpace c = false)

/-- What a turn took from the world and gave back: the value returned, the
generator values left unused and the input left unread. -/
def turnUse (res : TurnResult) : Int × List Int × List ReadResult :=
  (res.turnTotal, res.rng, res.stdin)

/-- Number of hold-or-roll prompts in an output. -/
def prompts : List Event → Nat
  | [] => 0
  | Event.holdPrompt :: es => prompts es + 1
  | _ :: es => prompts es

/-- Number of complaints about a response (unreadable or invalid) in an output;
`askHold` prompts again after each of them. -/
def complaints : List Event → Nat
  | [] => 0
  | Event.responseReadError :: es => complaints es + 1
  | Event.invalidResponse :: es => complaints es + 1
  | _ :: es => complaints es

/-- Replays a history of turns from a player array and the two input channels.
Each recorded turn has to be a call of `playTurn` for the recorded player, with
that player's current name and score, on the generator values and input left
by the turns before it; the call has to return the recorded total, and the
array recorded as the one before the turn has to be the current one. The value
returned is added to that player's score. The result is the player array and
the channels after the last recorded turn, or nothing when the history does
not fit. -/
def replay : List TurnRecord → Players → List Int → List ReadResult →
    Option (Players × List Int × List ReadResult)
  | [], ps, rng, stdin => some (ps, rng, stdin)
  | rec :: recs, ps, rng, stdin =>
    match playTurn (ps.get rec.num).name (ps.get rec.num).score rng stdin with
    | .error _ => none
    | .ok res =>
      if rec.before = ps ∧ rec.total = res.turnTotal then
        replay recs
          (ps.set rec.num
            { ps.get rec.num with score := (ps.get rec.num).score + res.turnTotal })
          res.rng res.stdin
      else none

/-- The player whose turn comes after the turns of the history: player 0 after
an even number of turns, player 1 after an odd number. -/
def nextPlayer (g : Game) : Fin 2 :=
  ⟨g.turns.length % 2, Nat.mod_lt _ (by decide)⟩

/-! ## Sample games -/

/-- A game at which player A, with the given score, is about to roll a 4 and
hold; a 5 and a second "hold" are left for player B. -/
def gameAt (score : Int) : Game :=
  startGame ⟨⟨"A", score⟩, ⟨"B", 0⟩⟩ (rngFor [4, 5]) [line "h\n", line "h\n"] []

/-- Input of a whole game: the names Ann and Bob, then sixteen times "roll" and
one "hold". -/
def shortGameInput : List ReadResult :=
  [line "Ann\n", line "Bob\n"] ++ List.replicate 16 (line "r\n") ++ [line "h\n"]

/-- Input of a short session: the names Ann and Bob, then "roll", "hold",
a rejected line and "hold". -/
def sessionInput : List ReadResult :=
  [line "Ann\n", line "Bob\n", line "r\n", line "h\n", line "what?\n", line "h\n"]

/-! ## Basic facts -/

theorem roll_six (d : Int) : roll 6 (d - 1) = .ok d := by
  simp [roll]

theorem rngFor_cons (d : Int) (ds : List Int) : rngFor (d :: ds) = (d - 1) :: rngFor ds := rfl

theorem rngFor_append (xs ys : List Int) : rngFor (xs ++ ys) = rngFor xs ++ rngFor ys := by
  simp [rngFor]

theorem rngFor_length (xs : List Int) : (rngFor xs).length = xs.length := by
  simp [rngFor]

/-- Unfolding of `askHold` on a failed read. -/
theorem askHold_failed (r : ReadResult) (s : List ReadResult) (hf : r.failed = true) :
    askHold (r :: s) =
      match askHold s with
      | .error e => .error e
      | .ok (hold, rest, out) =>
        .ok (hold, rest, Event.holdPrompt :: Event.responseReadError :: out) := by
  rw [askHold]; simp [hf]

/-- Unfolding of `askHold` on a line that is neither `h` nor `r`. -/
theorem askHold_other (r : ReadResult) (s : List ReadResult) (hf : r.failed = false)
    (hh : trimSpace r.text ≠ "h") (hr : trimSpace r.text ≠ "r") :
    askHold (r :: s) =
      match askHold s with
      | .error e => .error e
      | .ok (hold, rest, out) =>
        .ok (hold, rest, Event.holdPrompt :: Event.invalidResponse :: out) := by
  rw [askHold]; simp [hf, hh, hr]

theorem askHold_h (r : ReadResult) (s : List ReadResult) (hf : r.failed = false)
    (hh : trimSpace r.text = "h") :
    askHold (r :: s) = .ok (true, s, [Event.holdPrompt]) := by
  rw [askHold]; simp [hf, hh]

theorem askHold_r (r : ReadResult) (s : List ReadResult) (hf : r.failed = false)
    (hr : trimSpace r.text = "r") :
    askHold (r :: s) = .ok (false, s, [Event.holdPrompt]) := by
  rw [askHold]; simp [hf, hr]

/-- A script without decisions leaves `askHold` waiting for input. -/
theorem askHold_of_decisions_nil : ∀ (s : List ReadResult), decisions s = [] →
    askHold s = .error .noInput
  | [], _ => rfl
  | r :: s, h => by
    by_cases hf : r.failed = true
    · rw [askHold_failed r s hf, askHold_of_decisions_nil s (by simpa [decisions, hf] using h)]
    · have hf : r.failed = false := by simpa using hf
      by_cases hh : trimSpace r.text = "h"
      · simp [decisions, hf, hh] at h
      · by_cases hr : trimSpace r.text = "r"
        · simp [decisions, hf, hr] at h
        · rw [askHold_other r s hf hh hr,
            askHold_of_decisions_nil s (by simpa [decisions, hf, hh, hr] using h)]

/-- The answer of `askHold` is the first decision of the script, and the unread
input carries the remaining decisions; nothing it prints is a roll message. -/
theorem askHold_of_decisions_cons : ∀ (s : List ReadResult) (b : Bool) (bs : List Bool),
    decisions s = b :: bs →
    ∃ rest out, askHold s = .ok (b, rest, out) ∧ decisions rest = bs ∧
      displayedTotals out = []
  | [], _, _, h => by simp [decisions] at h
  | r :: s, b, bs, h => by
    by_cases hf : r.failed = true
    · obtain ⟨rest, out, h1, h2, h3⟩ :=
        askHold_of_decisions_cons s b bs (by simpa [decisions, hf] using h)
      exact ⟨rest, _, by rw [askHold_failed r s hf, h1], h2,
        by simpa [displayedTotals] using h3⟩
    · have hf : r.failed = false := by simpa using hf
      by_cases hh : trimSpace r.text = "h"
      · have h' : true = b ∧ decisions s = bs := by simpa [decisions, hf, hh] using h
        exact ⟨s, _, by rw [askHold_h r s hf hh, h'.1], h'.2, by simp [displayedTotals]⟩
      · by_cases hr : trimSpace r.text = "r"
        · have h' : false = b ∧ decisions s = bs := by simpa [decisions, hf, hr] using h
          exact ⟨s, _, by rw [askHold_r r s hf hr, h'.1], h'.2, by simp [displayedTotals]⟩
        · obtain ⟨rest, out, h1, h2, h3⟩ :=
            askHold_of_decisions_cons s b bs (by simpa [decisions, hf, hh, hr] using h)
          exact ⟨rest, _, by rw [askHold_other r s hf hh hr, h1], h2,
            by simpa [displayedTotals] using h3⟩

theorem displayedTotals_append (xs ys : List Event) :
    displayedTotals (xs ++ ys) = displayedTotals xs ++ displayedTotals ys := by
  induction xs with
  | nil => rfl
  | cons e es ih => cases e <;> simp [displayedTotals, ih]

/-- Unfolding of the roll loop on a roll of 1. -/
theorem playTurnLoop_one (name : String) (score t : Int) (rng : List Int)
    (stdin : List ReadResult) :
    playTurnLoop name score t ((1 - 1) :: rng) stdin =
      .ok ⟨0, rng, stdin, [Event.busted name]⟩ := by
  simp [playTurnLoop, roll]

/-- Unfolding of the roll loop on a roll other than 1. -/
theorem playTurnLoop_add (name : String) (score t d : Int) (rng : List Int)
    (stdin : List ReadResult) (hd : d ≠ 1) :
    playTurnLoop name score t ((d - 1) :: rng) stdin =
      match askHold stdin with
      | .error e => .error e
      | .ok (hold, stdin1, asked) =>
        if hold then
          .ok ⟨t + d, rng, stdin1, Event.rolled name d (t + d) (score + (t + d)) :: asked⟩
        else
          match playTurnLoop name score (t + d) rng stdin1 with
          | .error e => .error e
          | .ok res =>
            .ok { res with
              out := (Event.rolled name d (t + d) (score + (t + d)) :: asked) ++ res.out } := by
  simp [playTurnLoop, roll, hd]

/-- Roll loop, bust: non-1 rolls each answered with "roll", then a 1. -/
theorem playTurnLoop_bust (name : String) (score : Int) (rest : List Int) :
    ∀ (pre : List Int) (t : Int) (stdin : List ReadResult),
    (∀ d ∈ pre, d ≠ 1) →
    (decisions stdin).take pre.length = List.replicate pre.length false →
    ∃ res, playTurnLoop name score t (rngFor (pre ++ 1 :: rest)) stdin = .ok res ∧
      res.turnTotal = 0 ∧ res.rng = rngFor rest
  | [], t, stdin, _, _ => ⟨_, playTurnLoop_one name score t (rngFor rest) stdin, rfl, rfl⟩
  | d :: pre, t, stdin, hpre, hdec => by
    have hd : d ≠ 1 := hpre d (by simp)
    obtain ⟨bs, hbs⟩ : ∃ bs, decisions stdin = false :: bs := by
      cases hds : decisions stdin with
      | nil => simp [hds] at hdec
      | cons b bs =>
        simp [hds, List.replicate_succ] at hdec
        exact ⟨bs, by rw [hdec.1]⟩
    obtain ⟨stdin1, asked, h1, h2, _⟩ := askHold_of_decisions_cons stdin false bs hbs
    have hdec1 : (decisions stdin1).take pre.length = List.replicate pre.length false := by
      rw [hbs] at hdec
      simpa [h2, List.replicate_succ] using hdec
    obtain ⟨res, hres, htot, hrng⟩ :=
      playTurnLoop_bust name score rest pre (t + d) stdin1
        (fun x hx => hpre x (by simp [hx])) hdec1
    refine ⟨{ res with
      out := (Event.rolled name d (t + d) (score + (t + d)) :: asked) ++ res.out },
      ?_, htot, hrng⟩
    show playTurnLoop name score t ((d - 1) :: rngFor (pre ++ 1 :: rest)) stdin = _
    rw [playTurnLoop_add name score t d _ stdin hd, h1]
    simp only [Bool.false_eq_true, if_false, hres]

/-- Roll loop, hold: non-1 rolls, "roll" after all but the last, "hold" after
the last. The total grows by the sum of the rolls and is the last one shown. -/
theorem playTurnLoop_hold (name : String) (score : Int) (rest : List Int) :
    ∀ (rs : List Int) (t : Int) (stdin : List ReadResult), rs ≠ [] →
    (∀ d ∈ rs, d ≠ 1) →
    (decisions stdin).take rs.length = List.replicate (rs.length - 1) false ++ [true] →
    ∃ res, playTurnLoop name score t (rngFor (rs ++ rest)) stdin = .ok res ∧
      res.turnTotal = t + rs.sum ∧ res.rng = rngFor rest ∧
      (displayedTotals res.out).getLast? = some (t + rs.sum)
  | [], _, _, hne, _, _ => absurd rfl hne
  | [d], t, stdin, _, hrs, hdec => by
    have hd : d ≠ 1 := hrs d (by simp)
    obtain ⟨bs, hbs⟩ : ∃ bs, decisions stdin = true :: bs := by
      cases hds : decisions stdin with
      | nil => simp [hds] at hdec
      | cons b bs =>
        simp [hds] at hdec
        exact ⟨bs, by rw [hdec]⟩
    obtain ⟨stdin1, asked, h1, _, h3⟩ := askHold_of_decisions_cons stdin true bs hbs
    refine ⟨⟨t + d, rngFor rest, stdin1,
      Event.rolled name d (t + d) (score + (t + d)) :: asked⟩, ?_, by simp, rfl, ?_⟩
    · show playTurnLoop name score t ((d - 1) :: rngFor rest) stdin = _
      rw [playTurnLoop_add name score t d _ stdin hd, h1]
      simp
    · simp [displayedTotals, h3]
  | d :: d2 :: rs, t, stdin, _, hrs, hdec => by
    have hd : d ≠ 1 := hrs d (by simp)
    obtain ⟨bs, hbs⟩ : ∃ bs, decisions stdin = false :: bs := by
      cases hds : decisions stdin with
      | nil => simp [hds] at hdec
      | cons b bs =>
        simp [hds, List.replicate_succ] at hdec
        exact ⟨bs, by rw [hdec.1]⟩
    obtain ⟨stdin1, asked, h1, h2, h3⟩ := askHold_of_decisions_cons stdin false bs hbs
    have hdec1 : (decisions stdin1).take (d2 :: rs).length =
        List.replicate ((d2 :: rs).length - 1) false ++ [true] := by
      rw [hbs] at hdec
      simpa [h2, List.replicate_succ] using hdec
    obtain ⟨res, hres, htot, hrng, hlast⟩ :=
      playTurnLoop_hold name score rest (d2 :: rs) (t + d) stdin1 (by simp)
        (fun x hx => hrs x (by simp only [List.mem_cons] at hx ⊢; exact Or.inr hx)) hdec1
    refine ⟨{ res with
      out := (Event.rolled name d (t + d) (score + (t + d)) :: asked) ++ res.out },
      ?_, ?_, hrng, ?_⟩
    · show playTurnLoop name score t ((d - 1) :: rngFor ((d2 :: rs) ++ rest)) stdin = _
      rw [playTurnLoop_add name score t d _ stdin hd, h1]
      simp only [Bool.false_eq_true, if_false, hres]
    · simp only [htot, List.sum_cons]; ring
    · have hne : displayedTotals res.out ≠ [] := by
        intro h; simp [h] at hlast
      have happ : displayedTotals ((Event.rolled name d (t + d) (score + (t + d)) :: asked) ++
          res.out) = [t + d] ++ displayedTotals res.out := by
        rw [displayedTotals_append]; simp [displayedTotals, h3]
      show (displayedTotals ((Event.rolled name d (t + d) (score + (t + d)) :: asked) ++
          res.out)).getLast? = _
      rw [happ, List.getLast?_append_of_ne_nil _ hne, hlast, List.sum_cons (a := d), add_assoc]

/-! ## General facts about completed turns -/

/-- Unfolding of one iteration of the roll loop. -/
theorem playTurnLoop_cons (name : String) (score t g : Int) (rng : List Int)
    (stdin : List ReadResult) :
    playTurnLoop name score t (g :: rng) stdin =
      if g + 1 = 1 then .ok ⟨0, rng, stdin, [Event.busted name]⟩
      else
        match askHold stdin with
        | .error e => .error e
        | .ok (hold, stdin1, asked) =>
          if hold then
            .ok ⟨t + (g + 1), rng, stdin1,
              Event.rolled name (g + 1) (t + (g + 1)) (score + (t + (g + 1))) :: asked⟩
          else
            match playTurnLoop name score (t + (g + 1)) rng stdin1 with
            | .error e => .error e
            | .ok res =>
              .ok { res with
                out := (Event.rolled name (g + 1) (t + (g + 1)) (score + (t + (g + 1))) ::
                  asked) ++ res.out } := by
  simp [playTurnLoop, roll]

/-- The messages of `askHold` are prompts and complaints only. -/
theorem askHold_out_events : ∀ (s rest : List ReadResult) (b : Bool) (out : List Event),
    askHold s = .ok (b, rest, out) →
    ∀ e ∈ out,
      e = Event.holdPrompt ∨ e = Event.responseReadError ∨ e = Event.invalidResponse
  | [], _, _, _, h => by simp [askHold] at h
  | r :: s, rest, b, out, h => by
    have step : ∀ (c : Event),
        (c = Event.responseReadError ∨ c = Event.invalidResponse) →
        (match askHold s with
          | .error e => (.error e : Except Halt (Bool × List ReadResult × List Event))
          | .ok (hold, rest, out) => .ok (hold, rest, Event.holdPrompt :: c :: out)) =
          .ok (b, rest, out) →
        ∀ e ∈ out, e = Event.holdPrompt ∨ e = Event.responseReadError ∨
          e = Event.invalidResponse := by
      intro c hc h
      cases hA : askHold s with
      | error e => rw [hA] at h; cases h
      | ok v =>
        obtain ⟨b1, rest1, out1⟩ := v
        rw [hA] at h
        cases h
        have ih := askHold_out_events s rest b out1 hA
        intro e he
        simp only [List.mem_cons] at he
        rcases he with he | he | he
        · exact Or.inl he
        · rcases hc with hc | hc
          · exact Or.inr (Or.inl (he.trans hc))
          · exact Or.inr (Or.inr (he.trans hc))
        · exact ih e he
    by_cases hf : r.failed = true
    · rw [askHold_failed r s hf] at h
      exact step _ (Or.inl rfl) h
    · have hf : r.failed = false := by simpa using hf
      by_cases hh : trimSpace r.text = "h"
      · rw [askHold_h r s hf hh] at h
        cases h
        intro e he
        exact Or.inl (by simpa using he)
      · by_cases hr : trimSpace r.text = "r"
        · rw [askHold_r r s hf hr] at h
          cases h
          intro e he
          exact Or.inl (by simpa using he)
        · rw [askHold_other r s hf hh hr] at h
          exact step _ (Or.inr rfl) h

theorem askHold_no_busted (s rest : List ReadResult) (b : Bool) (out : List Event)
    (h : askHold s = .ok (b, rest, out)) (name : String) : Event.busted name ∉ out := by
  intro hb
  rcases askHold_out_events s rest b out h _ hb with h | h | h <;> cases h

/-- Whatever `askHold` returns is the first decision of its script; the unread
input carries the remaining decisions and no roll message is printed. -/
theorem askHold_ok_inv (s rest : List ReadResult) (b : Bool) (out : List Event)
    (h : askHold s = .ok (b, rest, out)) :
    decisions s = b :: decisions rest ∧ displayedTotals out = [] := by
  cases hd : decisions s with
  | nil => rw [askHold_of_decisions_nil s hd] at h; cases h
  | cons b1 bs =>
    obtain ⟨rest1, out1, h1, h2, h3⟩ := askHold_of_decisions_cons s b1 bs hd
    rw [h1] at h
    cases h
    exact ⟨by rw [h2], h3⟩

/-- A completed roll loop either bust on its first roll, or held after its first
roll, or went on after its first roll and completed from there. -/
theorem playTurnLoop_ok_inv (name : String) (score t g : Int) (rng : List Int)
    (stdin : List ReadResult) (res : TurnResult)
    (h : playTurnLoop name score t (g :: rng) stdin = .ok res) :
    (g + 1 = 1 ∧ res = ⟨0, rng, stdin, [Event.busted name]⟩) ∨
    (g + 1 ≠ 1 ∧ ∃ hold stdin1 asked, askHold stdin = .ok (hold, stdin1, asked) ∧
      ((hold = true ∧ res = ⟨t + (g + 1), rng, stdin1,
          Event.rolled name (g + 1) (t + (g + 1)) (score + (t + (g + 1))) :: asked⟩) ∨
       (hold = false ∧ ∃ res1,
          playTurnLoop name score (t + (g + 1)) rng stdin1 = .ok res1 ∧
          res = { res1 with
            out := (Event.rolled name (g + 1) (t + (g + 1)) (score + (t + (g + 1))) ::
              asked) ++ res1.out }))) := by
  rw [playTurnLoop_cons] at h
  by_cases hg : g + 1 = 1
  · rw [if_pos hg] at h
    exact Or.inl ⟨hg, by cases h; rfl⟩
  · rw [if_neg hg] at h
    refine Or.inr ⟨hg, ?_⟩
    cases hA : askHold stdin with
    | error e => rw [hA] at h; cases h
    | ok v =>
      obtain ⟨hold, stdin1, asked⟩ := v
      rw [hA] at h
      refine ⟨hold, stdin1, asked, rfl, ?_⟩
      cases hold with
      | true =>
        simp only [if_true] at h
        exact Or.inl ⟨rfl, by cases h; rfl⟩
      | false =>
        simp only [Bool.false_eq_true, if_false] at h
        cases hR : playTurnLoop name score (t + (g + 1)) rng stdin1 with
        | error e => rw [hR] at h; cases h
        | ok res1 =>
          rw [hR] at h
          exact Or.inr ⟨rfl, res1, rfl, by cases h; rfl⟩

/-- A completed `playTurn` is a completed roll loop started at 0, with the turn
announcement in front of its messages. -/
theorem playTurn_ok_inv (name : String) (score : Int) (rng : List Int)
    (stdin : List ReadResult) (res : TurnResult)
    (h : playTurn name score rng stdin = .ok res) :
    ∃ res1, playTurnLoop name score 0 rng stdin = .ok res1 ∧
      res = { res1 with out := Event.turnStart name :: res1.out } := by
  unfold playTurn at h
  cases hR : playTurnLoop name score 0 rng stdin with
  | error e => rw [hR] at h; cases h
  | ok res1 => rw [hR] at h; exact ⟨res1, rfl, by cases h; rfl⟩

/-- Bounds for a completed roll loop entered after `k` non-bust rolls with a
total `t` in `[0, 6 * k]`, when every die outcome lies in 1..6: every displayed
total and the returned total stay within 6 points per non-bust roll, a bust
returns 0, and the unused generator values are a suffix of those given. -/
theorem playTurnLoop_bounds (name : String) (score : Int) :
    ∀ (rng : List Int) (t : Int) (k : Nat) (stdin : List ReadResult) (res : TurnResult),
    (∀ g ∈ rng, 0 ≤ g ∧ g ≤ 5) → 0 ≤ t → t ≤ 6 * (k : Int) →
    playTurnLoop name score t rng stdin = .ok res →
    (0 ≤ res.turnTotal ∧
      res.turnTotal ≤ 6 * ((k : Int) + ((displayedTotals res.out).length : Int))) ∧
    (∀ (i : Nat) (x : Int), (displayedTotals res.out)[i]? = some x →
      0 ≤ x ∧ x ≤ 6 * ((k : Int) + (i : Int) + 1)) ∧
    (Event.busted name ∈ res.out → res.turnTotal = 0) ∧
    res.rng <:+ rng
  | [], _, _, _, _, _, _, _, h => by simp [playTurnLoop] at h
  | g :: rng, t, k, stdin, res, hrng, ht0, htk, h => by
    have hg := hrng g (by simp)
    have hrng1 : ∀ x ∈ rng, 0 ≤ x ∧ x ≤ 5 := fun x hx => hrng x (by simp [hx])
    rcases playTurnLoop_ok_inv name score t g rng stdin res h with
      ⟨_, rfl⟩ | ⟨hne, hold, stdin1, asked, hA, ⟨_, rfl⟩ | ⟨_, res1, hR, rfl⟩⟩
    · refine ⟨⟨le_refl _, ?_⟩, ?_, fun _ => rfl, List.suffix_cons g rng⟩
      · simp [displayedTotals]
      · intro i x hx; simp [displayedTotals] at hx
    · have hasked := (askHold_ok_inv stdin stdin1 hold asked hA).2
      have hdt : displayedTotals (Event.rolled name (g + 1) (t + (g + 1))
          (score + (t + (g + 1))) :: asked) = [t + (g + 1)] := by
        simp [displayedTotals, hasked]
      refine ⟨⟨?_, ?_⟩, ?_, ?_, List.suffix_cons g rng⟩
      · show 0 ≤ t + (g + 1); omega
      · show t + (g + 1) ≤ _
        rw [hdt]; simp; omega
      · intro i x hx
        rw [hdt] at hx
        cases i with
        | zero => simp at hx; subst hx; constructor <;> push_cast <;> omega
        | succ i => simp at hx
      · intro hb
        simp only [List.mem_cons] at hb
        rcases hb with hb | hb
        · cases hb
        · exact absurd hb (askHold_no_busted stdin stdin1 hold asked hA name)
    · have hasked := (askHold_ok_inv stdin stdin1 hold asked hA).2
      have hk1 : t + (g + 1) ≤ 6 * ((k + 1 : Nat) : Int) := by push_cast; omega
      obtain ⟨⟨h0, hle⟩, hdisp, hbust, hsuf⟩ :=
        playTurnLoop_bounds name score rng (t + (g + 1)) (k + 1) stdin1 res1 hrng1
          (by omega) hk1 hR
      have hdt : displayedTotals ((Event.rolled name (g + 1) (t + (g + 1))
          (score + (t + (g + 1))) :: asked) ++ res1.out) =
          (t + (g + 1)) :: displayedTotals res1.out := by
        rw [displayedTotals_append]; simp [displayedTotals, hasked]
      refine ⟨⟨h0, ?_⟩, ?_, ?_, hsuf.trans (List.suffix_cons g rng)⟩
      · show res1.turnTotal ≤ _
        rw [hdt]
        push_cast at hle ⊢
        simp only [List.length_cons]
        push_cast
        omega
      · intro i x hx
        rw [hdt] at hx
        cases i with
        | zero => simp at hx; subst hx; constructor <;> push_cast <;> omega
        | succ i =>
          have := hdisp i x (by simpa using hx)
          push_cast at this ⊢
          omega
      · intro hb
        apply hbust
        simp only [List.mem_append, List.mem_cons] at hb
        rcases hb with (hb | hb) | hb
        · cases hb
        · exact absurd hb (askHold_no_busted stdin stdin1 hold asked hA name)
        · exact hb

/-! ## General facts about the game loop -/

theorem Players.get_set_same (ps : Players) (num : Fin 2) (p : Player) :
    (ps.set num p).get num = p := by
  fin_cases num <;> rfl

theorem Players.get_set_other (ps : Players) (num i : Fin 2) (p : Player) (h : i ≠ num) :
    (ps.set num p).get i = ps.get i := by
  fin_cases num <;> fin_cases i <;> first | rfl | exact absurd rfl h

/-- A turn whose `playTurn` stops without a result leaves the game as it was. -/
theorem turn_of_error (num : Fin 2) (g : Game) (e : Halt)
    (h : playTurn (g.player.get num).name (g.player.get num).score g.rng g.stdin = .error e) :
    turn num g = (g, .halted e) := by
  simp [turn, h]

/-- A completed turn that reaches 100 or more ends with a winner. -/
theorem turn_of_ok_won (num : Fin 2) (g : Game) (res : TurnResult)
    (h : playTurn (g.player.get num).name (g.player.get num).score g.rng g.stdin = .ok res)
    (hw : 100 ≤ (g.player.get num).score + res.turnTotal) :
    turn num g =
      (⟨g.player.set num
          { g.player.get num with score := (g.player.get num).score + res.turnTotal },
        res.rng, res.stdin,
        g.stdout ++ res.out ++
          [Event.currentScore (g.player.get num).name
            ((g.player.get num).score + res.turnTotal)] ++
          [Event.wins (g.player.get num).name ((g.player.get num).score + res.turnTotal)],
        g.turns ++ [⟨num, g.player, res.turnTotal⟩]⟩, .won) := by
  simp [turn, h, hw]

/-- A completed turn that stays below 100 leaves the game running. -/
theorem turn_of_ok_running (num : Fin 2) (g : Game) (res : TurnResult)
    (h : playTurn (g.player.get num).name (g.player.get num).score g.rng g.stdin = .ok res)
    (hw : ¬ 100 ≤ (g.player.get num).score + res.turnTotal) :
    turn num g =
      (⟨g.player.set num
          { g.player.get num with score := (g.player.get num).score + res.turnTotal },
        res.rng, res.stdin,
        g.stdout ++ res.out ++
          [Event.currentScore (g.player.get num).name
            ((g.player.get num).score + res.turnTotal)],
        g.turns ++ [⟨num, g.player, res.turnTotal⟩]⟩, .running) := by
  simp [turn, h, hw]

/-- The three ways a turn can end. -/
theorem turn_cases (num : Fin 2) (g : Game) :
    (∃ e, playTurn (g.player.get num).name (g.player.get num).score g.rng g.stdin = .error e ∧
      turn num g = (g, .halted e)) ∨
    (∃ res g1,
      playTurn (g.player.get num).name (g.player.get num).score g.rng g.stdin = .ok res ∧
      (turn num g = (g1, .won) ∧ 100 ≤ (g.player.get num).score + res.turnTotal ∧
         g1.stdout.getLast? = some (Event.wins (g.player.get num).name
           ((g.player.get num).score + res.turnTotal)) ∨
       turn num g = (g1, .running) ∧ ¬ 100 ≤ (g.player.get num).score + res.turnTotal) ∧
      g1.player = g.player.set num
        { g.player.get num with score := (g.player.get num).score + res.turnTotal } ∧
      g1.rng = res.rng ∧ g1.stdin = res.stdin ∧
      g1.turns = g.turns ++ [⟨num, g.player, res.turnTotal⟩]) := by
  cases h : playTurn (g.player.get num).name (g.player.get num).score g.rng g.stdin with
  | error e => exact Or.inl ⟨e, rfl, turn_of_error num g e h⟩
  | ok res =>
    by_cases hw : 100 ≤ (g.player.get num).score + res.turnTotal
    · exact Or.inr ⟨res, _, rfl, Or.inl ⟨turn_of_ok_won num g res h hw, hw, by simp⟩,
        rfl, rfl, rfl, rfl⟩
    · exact Or.inr ⟨res, _, rfl, Or.inr ⟨turn_of_ok_running num g res h hw, hw⟩,
        rfl, rfl, rfl, rfl⟩

/-- Unfolding of the inner loop at its first index. -/
theorem playRound_cons (num : Fin 2) (nums : List (Fin 2)) (g : Game) :
    playRound (num :: nums) g =
      if (turn num g).2 = .running then playRound nums (turn num g).1 else turn num g := by
  rw [playRound]
  rcases hT : turn num g with ⟨g1, st⟩
  cases st <;> simp

/-- Unfolding of the outer loop: one round is player 0's turn, then, unless
that turn stopped the game, player 1's turn. -/
theorem gameLoop_succ (fuel : Nat) (g : Game) :
    gameLoop (fuel + 1) g =
      if (turn 0 g).2 = .running then
        if (turn 1 (turn 0 g).1).2 = .running then gameLoop fuel (turn 1 (turn 0 g).1).1
        else turn 1 (turn 0 g).1
      else turn 0 g := by
  rw [gameLoop, playRound_cons, playRound_cons]
  by_cases h0 : (turn 0 g).2 = .running
  · rw [if_pos h0, if_pos h0]
    by_cases h1 : (turn 1 (turn 0 g).1).2 = .running
    · rw [if_pos h1, if_pos h1]
      simp only [playRound]
    · rw [if_neg h1, if_neg h1]
      rcases hT : turn 1 (turn 0 g).1 with ⟨g2, st⟩
      rw [hT] at h1
      cases st <;> simp at h1 ⊢
  · rw [if_neg h0, if_neg h0]
    rcases hT : turn 0 g with ⟨g1, st⟩
    rw [hT] at h0
    cases st <;> simp at h0 ⊢

/-- Induction along the game loop: `I0` holds whenever player 0 is about to
play, `I1` whenever player 1 is, and `F` describes every way the loop stops. -/
theorem gameLoop_induction (I0 I1 : Game → Prop) (F : Game × Status → Prop)
    (h0 : ∀ g, I0 g → (turn 0 g).2 = .running → I1 (turn 0 g).1)
    (h1 : ∀ g, I1 g → (turn 1 g).2 = .running → I0 (turn 1 g).1)
    (f0 : ∀ g, I0 g → (turn 0 g).2 ≠ .running → F (turn 0 g))
    (f1 : ∀ g, I1 g → (turn 1 g).2 ≠ .running → F (turn 1 g))
    (ff : ∀ g, I0 g → F (g, .halted .outOfFuel)) :
    ∀ (fuel : Nat) (g : Game), I0 g → F (gameLoop fuel g)
  | 0, g, hg => ff g hg
  | fuel + 1, g, hg => by
    rw [gameLoop_succ]
    by_cases c0 : (turn 0 g).2 = .running
    · rw [if_pos c0]
      by_cases c1 : (turn 1 (turn 0 g).1).2 = .running
      · rw [if_pos c1]
        exact gameLoop_induction I0 I1 F h0 h1 f0 f1 ff fuel _ (h1 _ (h0 g hg c0) c1)
      · rw [if_neg c1]
        exact f1 _ (h0 g hg c0) c1
    · rw [if_neg c0]
      exact f0 g hg c0

/-- Setting names through `readNames` leaves every score as it was. -/
theorem readNames_scores : ∀ (nums : List (Fin 2)) (ps ps1 : Players)
    (stdin rest : List ReadResult) (out : List Event),
    readNames nums ps stdin = .ok (ps1, rest, out) →
    ∀ i, (ps1.get i).score = (ps.get i).score
  | [], ps, ps1, stdin, rest, out, h, i => by
    simp only [readNames, Except.ok.injEq, Prod.mk.injEq] at h
    rw [h.1]
  | num :: nums, ps, ps1, stdin, rest, out, h, i => by
    rw [readNames] at h
    cases hN : getPlayerName num.val stdin with
    | error e => rw [hN] at h; cases h
    | ok v =>
      obtain ⟨name, stdin1, out1⟩ := v
      rw [hN] at h
      simp only at h
      cases hR : readNames nums (ps.set num { ps.get num with name := name }) stdin1 with
      | error e => rw [hR] at h; cases h
      | ok w =>
        obtain ⟨ps2, stdin2, out2⟩ := w
        rw [hR] at h
        simp only [Except.ok.injEq, Prod.mk.injEq] at h
        have ih := readNames_scores nums _ ps2 stdin1 stdin2 out2 hR i
        rw [← h.1, ih]
        by_cases hi : i = num
        · subst hi; rw [Players.get_set_same]
        · rw [Players.get_set_other _ _ _ _ hi]

/-- The game loop of `main` is entered, if at all, with both scores 0, no turn
played, and the generator untouched. -/
theorem main_cases (fuel : Nat) (rng : List Int) (stdin : List ReadResult) :
    ∃ g0 : Game, g0.turns = [] ∧ (∀ i, (g0.player.get i).score = 0) ∧ g0.rng = rng ∧
      (main fuel rng stdin = gameLoop fuel g0 ∨
        ∃ e, main fuel rng stdin = (g0, .halted e)) := by
  cases hN : readNames [0, 1] ⟨⟨"", 0⟩, ⟨"", 0⟩⟩ stdin with
  | error e =>
    refine ⟨startGame ⟨⟨"", 0⟩, ⟨"", 0⟩⟩ rng stdin [Event.rules], rfl, ?_, rfl,
      Or.inr ⟨e, ?_⟩⟩
    · intro i; fin_cases i <;> rfl
    · simp only [main, hN]
  | ok v =>
    obtain ⟨ps, stdin1, out⟩ := v
    refine ⟨startGame ps rng stdin1 (Event.rules :: out), rfl, ?_, rfl, Or.inl ?_⟩
    · intro i
      show (ps.get i).score = 0
      rw [readNames_scores _ _ _ _ _ _ hN i]
      fin_cases i <;> rfl
    · simp only [main, hN]

theorem turn_running_below (num : Fin 2) (g : Game) (hg : BelowAtTurnStart g)
    (hr : (turn num g).2 = .running) : BelowAtTurnStart (turn num g).1 := by
  rcases turn_cases num g with ⟨e, _, hT⟩ | ⟨res, g1, _, hT, hp, _, _, ht⟩
  · rw [hT] at hr; cases hr
  · rcases hT with ⟨hT, _⟩ | ⟨hT, hlt⟩
    · rw [hT] at hr; cases hr
    · rw [hT]
      refine ⟨fun i => ?_, fun rec hrec i => ?_⟩
      · show (g1.player.get i).score < 100
        rw [hp]
        by_cases hi : i = num
        · subst hi; rw [Players.get_set_same]; exact not_le.mp hlt
        · rw [Players.get_set_other _ _ _ _ hi]; exact hg.1 i
      · have hrec : rec ∈ g.turns ++ [⟨num, g.player, res.turnTotal⟩] := ht ▸ hrec
        rcases List.mem_append.mp hrec with hrec | hrec
        · exact hg.2 rec hrec i
        · rw [List.mem_singleton.mp hrec]; exact hg.1 i

theorem turn_stopped_properly (num : Fin 2) (g : Game) (hg : BelowAtTurnStart g)
    (hr : (turn num g).2 ≠ .running) : StoppedProperly (turn num g) := by
  rcases turn_cases num g with ⟨e, _, hT⟩ | ⟨res, g1, _, hT, hp, _, _, ht⟩
  · rw [hT]
    exact ⟨hg.2, fun h => (by cases h), fun _ => hg.1⟩
  · rcases hT with ⟨hT, hw, hout⟩ | ⟨hT, _⟩
    · rw [hT]
      have hnum : (g1.player.get num).score = (g.player.get num).score + res.turnTotal := by
        rw [hp, Players.get_set_same]
      have hname : (g1.player.get num).name = (g.player.get num).name := by
        rw [hp, Players.get_set_same]
      refine ⟨fun rec hrec i => ?_,
        fun _ => ⟨⟨num, g.player, res.turnTotal⟩, ?_, ?_, ?_, ?_⟩, fun h => absurd rfl h⟩
      · have hrec : rec ∈ g.turns ++ [⟨num, g.player, res.turnTotal⟩] := ht ▸ hrec
        rcases List.mem_append.mp hrec with hrec | hrec
        · exact hg.2 rec hrec i
        · rw [List.mem_singleton.mp hrec]; exact hg.1 i
      · show g1.turns.getLast? = _
        rw [ht]; simp
      · show g1.stdout.getLast? = some (Event.wins (g1.player.get num).name
          (g1.player.get num).score)
        rw [hout, hnum, hname]
      · show 100 ≤ (g1.player.get num).score
        rw [hnum]; exact hw
      · intro i hi
        have hi' : (g1.player.get i).score = (g.player.get i).score := by
          rw [hp, Players.get_set_other _ _ _ _ hi]
        have := hg.1 i
        show (g1.player.get i).score < 100 ∧ (g1.player.get i).score < (g1.player.get num).score
        rw [hi', hnum]
        constructor <;> omega
    · rw [hT] at hr; exact absurd rfl hr

theorem gameLoop_stopped_properly (fuel : Nat) (g : Game) (hg : BelowAtTurnStart g) :
    StoppedProperly (gameLoop fuel g) :=
  gameLoop_induction BelowAtTurnStart BelowAtTurnStart StoppedProperly
    (turn_running_below 0) (turn_running_below 1)
    (turn_stopped_properly 0) (turn_stopped_properly 1)
    (fun g hg => ⟨hg.2, fun h => (by cases h), fun _ => hg.1⟩) fuel g hg

theorem fairDice_rngFor (ds : List Int) (hds : ∀ d ∈ ds, 1 ≤ d ∧ d ≤ 6) :
    FairDice (rngFor ds) := by
  intro g hg
  obtain ⟨d, hd, rfl⟩ := List.mem_map.mp hg
  have := hds d hd
  constructor <;> omega

/-- Bounds for a completed `playTurn` with die outcomes in 1..6. -/
theorem playTurn_bounds (name : String) (score : Int) (rng : List Int)
    (stdin : List ReadResult) (res : TurnResult) (hf : FairDice rng)
    (h : playTurn name score rng stdin = .ok res) :
    (0 ≤ res.turnTotal ∧ res.turnTotal ≤ 6 * ((displayedTotals res.out).length : Int)) ∧
    (∀ (i : Nat) (x : Int), (displayedTotals res.out)[i]? = some x →
      0 ≤ x ∧ x ≤ 6 * ((i : Int) + 1)) ∧
    (Event.busted name ∈ res.out → res.turnTotal = 0) ∧
    res.rng <:+ rng := by
  obtain ⟨res1, h1, rfl⟩ := playTurn_ok_inv name score rng stdin res h
  obtain ⟨⟨a0, a1⟩, a2, a3, a4⟩ :=
    playTurnLoop_bounds name score rng 0 0 stdin res1 hf (le_refl _) (by simp) h1
  have hdt : displayedTotals (Event.turnStart name :: res1.out) = displayedTotals res1.out := rfl
  refine ⟨⟨a0, ?_⟩, ?_, ?_, a4⟩
  · show res1.turnTotal ≤ _
    rw [hdt]; simpa using a1
  · intro i x hx
    have := a2 i x (by rw [← hdt]; exact hx)
    simpa using this
  · intro hb
    apply a3
    simp only [List.mem_cons] at hb
    rcases hb with hb | hb
    · cases hb
    · exact hb

/-- Every run of `main` stops properly: its game loop starts with both scores
at 0 and an empty history. -/
theorem main_stopped_properly (fuel : Nat) (rng : List Int) (stdin : List ReadResult) :
    StoppedProperly (main fuel rng stdin) := by
  obtain ⟨g0, ht, hs, _, hm | ⟨e, hm⟩⟩ := main_cases fuel rng stdin
  · have hg0 : BelowAtTurnStart g0 :=
      ⟨fun i => (by rw [hs i]; decide), fun rec hrec => (by rw [ht] at hrec; cases hrec)⟩
    rw [hm]
    exact gameLoop_stopped_properly fuel g0 hg0
  · rw [hm]
    exact ⟨fun rec hrec => (by rw [ht] at hrec; cases hrec), fun hc => (by cases hc),
      fun _ i => (by rw [hs i]; decide)⟩

/-- With die outcomes in 1..6 a turn lowers nobody's score, and the generator
values left over are again such outcomes. -/
theorem turn_scores_mono (num : Fin 2) (g : Game) (hf : FairDice g.rng) :
    FairDice (turn num g).1.rng ∧
    ∀ i, (g.player.get i).score ≤ ((turn num g).1.player.get i).score := by
  rcases turn_cases num g with ⟨e, _, hT⟩ | ⟨res, g1, hP, hT, hp, hr, _, _⟩
  · rw [hT]; exact ⟨hf, fun _ => le_refl _⟩
  · obtain ⟨⟨h0, _⟩, _, _, hsuf⟩ := playTurn_bounds _ _ _ _ res hf hP
    have hg1 : turn num g = (g1, (turn num g).2) := by
      rcases hT with ⟨hT, _⟩ | ⟨hT, _⟩ <;> rw [hT]
    rw [hg1]
    refine ⟨fun x hx => hf x (hsuf.subset (hr ▸ hx)), fun i => ?_⟩
    show (g.player.get i).score ≤ (g1.player.get i).score
    rw [hp]
    by_cases hi : i = num
    · subst hi; rw [Players.get_set_same]; show _ ≤ _ + _; omega
    · rw [Players.get_set_other _ _ _ _ hi]

theorem gameLoop_scores_mono (fuel : Nat) (g0 : Game) (hf : FairDice g0.rng) :
    ∀ i, (g0.player.get i).score ≤ ((gameLoop fuel g0).1.player.get i).score :=
  gameLoop_induction
    (fun g => FairDice g.rng ∧ ∀ i, (g0.player.get i).score ≤ (g.player.get i).score)
    (fun g => FairDice g.rng ∧ ∀ i, (g0.player.get i).score ≤ (g.player.get i).score)
    (fun r => ∀ i, (g0.player.get i).score ≤ (r.1.player.get i).score)
    (fun g hg _ => ⟨(turn_scores_mono 0 g hg.1).1,
      fun i => le_trans (hg.2 i) ((turn_scores_mono 0 g hg.1).2 i)⟩)
    (fun g hg _ => ⟨(turn_scores_mono 1 g hg.1).1,
      fun i => le_trans (hg.2 i) ((turn_scores_mono 1 g hg.1).2 i)⟩)
    (fun g hg _ i => le_trans (hg.2 i) ((turn_scores_mono 0 g hg.1).2 i))
    (fun g hg _ i => le_trans (hg.2 i) ((turn_scores_mono 1 g hg.1).2 i))
    (fun _ hg => hg.2) fuel g0 ⟨hf, fun _ => le_refl _⟩

/-- A history played in turn stays so when the player whose turn it is acts. -/
theorem roundRobin_concat (turns : List TurnRecord) (rec : TurnRecord)
    (h : RoundRobin turns) (hnum : rec.num.val = turns.length % 2) :
    RoundRobin (turns ++ [rec]) := by
  intro n r hr
  rw [List.getElem?_append] at hr
  by_cases hn : n < turns.length
  · rw [if_pos hn] at hr; exact h n r hr
  · rw [if_neg hn] at hr
    have hn0 : n - turns.length = 0 := by
      by_contra hc
      obtain ⟨m, hm⟩ := Nat.exists_eq_succ_of_ne_zero hc
      rw [hm] at hr
      simp at hr
    rw [hn0] at hr
    simp only [List.getElem?_cons_zero, Option.some.injEq] at hr
    have : n = turns.length := by omega
    rw [← hr, this, hnum]

/-- What a turn that does not halt adds to the history. -/
theorem turn_turns (num : Fin 2) (g : Game) :
    (turn num g = (g, (turn num g).2) ∧ (turn num g).2 ≠ .running) ∨
    ∃ total, (turn num g).1.turns = g.turns ++ [⟨num, g.player, total⟩] ∧
      ((turn num g).1.player.get num).score = (g.player.get num).score + total ∧
      ∀ i, i ≠ num → (turn num g).1.player.get i = g.player.get i := by
  rcases turn_cases num g with ⟨e, _, hT⟩ | ⟨res, g1, _, hT, hp, _, _, ht⟩
  · left; rw [hT]; exact ⟨rfl, fun h => by cases h⟩
  · right
    have hg1 : turn num g = (g1, (turn num g).2) := by
      rcases hT with ⟨hT, _⟩ | ⟨hT, _⟩ <;> rw [hT]
    rw [hg1]
    refine ⟨res.turnTotal, ht, ?_, fun i hi => ?_⟩
    · show (g1.player.get num).score = _
      rw [hp, Players.get_set_same]
    · show g1.player.get i = _
      rw [hp, Players.get_set_other _ _ _ _ hi]

theorem gameLoop_roundRobin (fuel : Nat) (g0 : Game) (h0 : g0.turns.length % 2 = 0)
    (hrr : RoundRobin g0.turns) : RoundRobin (gameLoop fuel g0).1.turns := by
  have step : ∀ (num : Fin 2) (g : Game), g.turns.length % 2 = num.val → RoundRobin g.turns →
      RoundRobin (turn num g).1.turns ∧
      ((turn num g).2 = .running → (turn num g).1.turns.length = g.turns.length + 1) := by
    intro num g hlen hg
    rcases turn_turns num g with ⟨hT, hne⟩ | ⟨total, ht, _, _⟩
    · rw [hT]; exact ⟨hg, fun h => absurd h hne⟩
    · rw [ht]
      exact ⟨roundRobin_concat _ _ hg hlen.symm, fun _ => by simp⟩
  exact gameLoop_induction
    (fun g => g.turns.length % 2 = 0 ∧ RoundRobin g.turns)
    (fun g => g.turns.length % 2 = 1 ∧ RoundRobin g.turns)
    (fun r => RoundRobin r.1.turns)
    (fun g hg hr => ⟨by rw [(step 0 g hg.1 hg.2).2 hr]; have := hg.1; omega,
      (step 0 g hg.1 hg.2).1⟩)
    (fun g hg hr => ⟨by rw [(step 1 g hg.1 hg.2).2 hr]; have := hg.1; omega,
      (step 1 g hg.1 hg.2).1⟩)
    (fun g hg _ => (step 0 g hg.1 hg.2).1)
    (fun g hg _ => (step 1 g hg.1 hg.2).1)
    (fun _ hg => hg.2) fuel g0 ⟨h0, hrr⟩

theorem banked_concat (turns : List TurnRecord) (rec : TurnRecord) (i : Fin 2) :
    banked (turns ++ [rec]) i = banked turns i + (if rec.num = i then rec.total else 0) := by
  unfold banked
  by_cases h : rec.num = i
  · simp [List.filter_append, List.filter_cons, h]
  · simp [List.filter_append, List.filter_cons, h]

/-- A turn keeps every score equal to what its owner banked. -/
theorem turn_banked (num : Fin 2) (g : Game)
    (hg : ∀ i, (g.player.get i).score = banked g.turns i) :
    ∀ i, ((turn num g).1.player.get i).score = banked (turn num g).1.turns i := by
  rcases turn_turns num g with ⟨hT, _⟩ | ⟨total, ht, hs, ho⟩
  · rw [hT]; exact hg
  · intro i
    rw [ht, banked_concat]
    by_cases hi : i = num
    · subst hi; rw [hs, hg i]; simp
    · rw [ho i hi, hg i, if_neg (fun h => hi h.symm)]; simp

theorem gameLoop_banked (fuel : Nat) (g0 : Game)
    (hg : ∀ i, (g0.player.get i).score = banked g0.turns i) :
    ∀ i, ((gameLoop fuel g0).1.player.get i).score = banked (gameLoop fuel g0).1.turns i :=
  gameLoop_induction
    (fun g => ∀ i, (g.player.get i).score = banked g.turns i)
    (fun g => ∀ i, (g.player.get i).score = banked g.turns i)
    (fun r => ∀ i, (r.1.player.get i).score = banked r.1.turns i)
    (fun g hg _ => turn_banked 0 g hg) (fun g hg _ => turn_banked 1 g hg)
    (fun g hg _ => turn_banked 0 g hg) (fun g hg _ => turn_banked 1 g hg)
    (fun _ hg => hg) fuel g0 hg

/-- The roll loop returns whenever a roll of 1 is in store and the input
carries a decision for every roll that could precede it. -/
theorem playTurnLoop_returns (name : String) (score : Int) :
    ∀ (rng : List Int) (t : Int) (stdin : List ReadResult), (0 : Int) ∈ rng →
    rng.length ≤ (decisions stdin).length →
    ∃ res, playTurnLoop name score t rng stdin = .ok res
  | [], _, _, h, _ => by simp at h
  | g :: rng, t, stdin, h0, hlen => by
    rw [playTurnLoop_cons]
    by_cases hg : g + 1 = 1
    · rw [if_pos hg]; exact ⟨_, rfl⟩
    · rw [if_neg hg]
      have h0 : (0 : Int) ∈ rng := by
        rcases List.mem_cons.mp h0 with h | h
        · exact absurd (by rw [← h]; rfl) hg
        · exact h
      cases hd : decisions stdin with
      | nil => rw [hd] at hlen; simp at hlen
      | cons b bs =>
        obtain ⟨stdin1, asked, h1, h2, _⟩ := askHold_of_decisions_cons stdin b bs hd
        rw [h1]
        cases b with
        | true => exact ⟨_, rfl⟩
        | false =>
          have hlen1 : rng.length ≤ (decisions stdin1).length := by
            rw [hd] at hlen
            rw [h2]
            simpa using hlen
          obtain ⟨res, hres⟩ :=
            playTurnLoop_returns name score rng (t + (g + 1)) stdin1 h0 hlen1
          simp only [Bool.false_eq_true, if_false]
          rw [hres]
          exact ⟨_, rfl⟩

theorem playTurn_returns (name : String) (score : Int) (rng : List Int)
    (stdin : List ReadResult) (h0 : (0 : Int) ∈ rng)
    (hlen : rng.length ≤ (decisions stdin).length) :
    ∃ res, playTurn name score rng stdin = .ok res := by
  obtain ⟨res, hres⟩ := playTurnLoop_returns name score rng 0 stdin h0 hlen
  unfold playTurn
  rw [hres]
  exact ⟨_, rfl⟩

/-! ## Facts about rejected responses -/

theorem rejected_iff (r : ReadResult) :
    rejected r = true ↔
      r.failed = true ∨ (trimSpace r.text ≠ "h" ∧ trimSpace r.text ≠ "r") := by
  simp [rejected]

theorem decisions_append (xs ys : List ReadResult) :
    decisions (xs ++ ys) = decisions xs ++ decisions ys := by
  induction xs with
  | nil => rfl
  | cons x xs ih =>
    simp only [List.cons_append, decisions, ih]
    split_ifs <;> simp [ih]

theorem decisions_of_invalid (xs : List ReadResult)
    (h : ∀ x ∈ xs, rejected x = true) : decisions xs = [] := by
  induction xs with
  | nil => rfl
  | cons x xs ih =>
    have hx := (rejected_iff x).mp (h x (by simp))
    have ih := ih (fun y hy => h y (by simp [hy]))
    rcases hx with hx | ⟨hh, hr⟩
    · simp [decisions, hx, ih]
    · simp [decisions, hh, hr, ih]

/-- View of a turn result in front of which a roll message and the messages of
one `askHold` were printed. -/
theorem turnView_prepend (name : String) (d t p : Int) (asked : List Event)
    (hasked : displayedTotals asked = []) (r : Except Halt TurnResult) :
    (match r with
      | .error e => (.error e : Except Halt TurnResult)
      | .ok res => .ok { res with out := (Event.rolled name d t p :: asked) ++ res.out }).map
        turnView =
    (r.map turnView).map (fun v => (v.1, v.2.1, t :: v.2.2.1, v.2.2.2)) := by
  cases r with
  | error e => rfl
  | ok res =>
    show Except.ok (turnView _) = Except.ok _
    simp [turnView, displayedTotals_append, displayedTotals, hasked]

/-- The roll loop sees its input only through the decisions it carries. -/
theorem playTurnLoop_decisions_congr (name : String) (score : Int) :
    ∀ (rng : List Int) (t : Int) (s1 s2 : List ReadResult), decisions s1 = decisions s2 →
    (playTurnLoop name score t rng s1).map turnView =
      (playTurnLoop name score t rng s2).map turnView
  | [], _, _, _, _ => rfl
  | g :: rng, t, s1, s2, h => by
    rw [playTurnLoop_cons, playTurnLoop_cons]
    by_cases hg : g + 1 = 1
    · rw [if_pos hg, if_pos hg]
      show Except.ok (turnView _) = Except.ok (turnView _)
      simp [turnView, h]
    · rw [if_neg hg, if_neg hg]
      cases hd : decisions s1 with
      | nil =>
        rw [askHold_of_decisions_nil s1 hd, askHold_of_decisions_nil s2 (h ▸ hd)]
      | cons b bs =>
        obtain ⟨r1, o1, e1, d1, t1⟩ := askHold_of_decisions_cons s1 b bs hd
        obtain ⟨r2, o2, e2, d2, t2⟩ := askHold_of_decisions_cons s2 b bs (h ▸ hd)
        rw [e1, e2]
        cases b with
        | true =>
          show Except.ok (turnView _) = Except.ok (turnView _)
          simp [turnView, displayedTotals, t1, t2, d1, d2]
        | false =>
          simp only [Bool.false_eq_true, if_false]
          rw [turnView_prepend name _ _ _ o1 t1, turnView_prepend name _ _ _ o2 t2,
            playTurnLoop_decisions_congr name score rng _ r1 r2 (d1.trans d2.symm)]

theorem playTurn_decisions_congr (name : String) (score : Int) (rng : List Int)
    (s1 s2 : List ReadResult) (h : decisions s1 = decisions s2) :
    (playTurn name score rng s1).map turnView = (playTurn name score rng s2).map turnView := by
  have key := playTurnLoop_decisions_congr name score rng 0 s1 s2 h
  unfold playTurn
  cases h1 : playTurnLoop name score 0 rng s1 with
  | error e1 =>
    cases h2 : playTurnLoop name score 0 rng s2 with
    | error e2 => rw [h1, h2] at key; exact key
    | ok res2 => rw [h1, h2] at key; cases key
  | ok res1 =>
    cases h2 : playTurnLoop name score 0 rng s2 with
    | error e2 => rw [h1, h2] at key; cases key
    | ok res2 =>
      rw [h1, h2] at key
      have key : turnView res1 = turnView res2 := by
        simpa [Except.map] using key
      show Except.ok (turnView _) = Except.ok (turnView _)
      simp only [turnView, Prod.mk.injEq] at key
      simp only [turnView, displayedTotals, key.1, key.2.1, key.2.2.1, key.2.2.2]

/-! ## Claims about `playTurn`: busting and holding -/

/-- C1. Busting yields 0: when the die shows a 1 after any number of non-1
rolls (each in 2..6), and every decision asked before it was "roll", `playTurn`
returns exactly 0, whatever had been accumulated; the generator values after
the 1 are left unused. -/
theorem playTurn_bust_returns_zero (name : String) (score : Int) (pre rest : List Int)
    (stdin : List ReadResult)
    (hpre : ∀ d ∈ pre, 2 ≤ d ∧ d ≤ 6)
    (hdec : (decisions stdin).take pre.length = List.replicate pre.length false) :
    ∃ res, playTurn name score (rngFor (pre ++ 1 :: rest)) stdin = .ok res ∧
      res.turnTotal = 0 ∧ res.rng = rngFor rest := by
  obtain ⟨res, hres, htot, hrng⟩ :=
    playTurnLoop_bust name score rest pre 0 stdin
      (fun d hd h1 => by have := hpre d hd; omega) hdec
  exact ⟨{ res with out := Event.turnStart name :: res.out }, by simp [playTurn, hres],
    htot, hrng⟩

/-- C1 at the rolls 6, 6, 6, 6, 1 (24 accumulated, one rejected response on the
way) and at the single roll 1. -/
theorem playTurn_bust_returns_zero_witness :
    (∃ res, playTurn "A" 0 (rngFor ([6, 6, 6, 6] ++ 1 :: [3]))
        [line "r\n", line "x\n", line " r\n", line "r\n", line "r\n", line "h\n"] = .ok res ∧
      res.turnTotal = 0 ∧ res.rng = rngFor [3]) ∧
    (∃ res, playTurn "A" 50 (rngFor ([] ++ 1 :: [])) [] = .ok res ∧
      res.turnTotal = 0 ∧ res.rng = rngFor []) :=
  ⟨playTurn_bust_returns_zero "A" 0 [6, 6, 6, 6] [3] _ (by decide) (by decide),
   playTurn_bust_returns_zero "A" 50 [] [] [] (by decide) (by decide)⟩

/-- C2. Holding yields the accumulated sum: for k ≥ 1 rolls all in 2..6, with
"roll" answered after each of the first k-1 and "hold" after the k-th,
`playTurn` returns their sum, which is the turn total displayed last. -/
theorem playTurn_hold_returns_sum (name : String) (score : Int) (rs rest : List Int)
    (stdin : List ReadResult) (hk : 1 ≤ rs.length)
    (hrs : ∀ d ∈ rs, 2 ≤ d ∧ d ≤ 6)
    (hdec : (decisions stdin).take rs.length =
      List.replicate (rs.length - 1) false ++ [true]) :
    ∃ res, playTurn name score (rngFor (rs ++ rest)) stdin = .ok res ∧
      res.turnTotal = rs.sum ∧ res.rng = rngFor rest ∧
      (displayedTotals res.out).getLast? = some res.turnTotal := by
  have hne : rs ≠ [] := by
    intro h; simp [h] at hk
  obtain ⟨res, hres, htot, hrng, hlast⟩ :=
    playTurnLoop_hold name score rest rs 0 stdin hne
      (fun d hd h1 => by have := hrs d hd; omega) hdec
  refine ⟨{ res with out := Event.turnStart name :: res.out }, by simp [playTurn, hres],
    by simpa using htot, hrng, ?_⟩
  show (displayedTotals (Event.turnStart name :: res.out)).getLast? = some res.turnTotal
  rw [htot]
  simpa [displayedTotals] using hlast

/-- C2 at the rolls 5, 3 with the answers roll, hold: the turn returns 8. -/
theorem playTurn_hold_returns_sum_witness :
    ∃ res, playTurn "A" 0 (rngFor ([5, 3] ++ [])) [line "r\n", line "h\n"] = .ok res ∧
      res.turnTotal = 8 ∧ res.rng = rngFor [] ∧
      (displayedTotals res.out).getLast? = some res.turnTotal :=
  playTurn_hold_returns_sum "A" 0 [5, 3] [] _ (by decide) (by decide) (by decide)

/-! ## Claims about the game loop of `main` -/

/-- C3. The win check happens after every single turn. For a completed turn of
player `num`: the score right after the turn is the old score plus the turn
total; the turn stops the game with a winner exactly when that score is 100 or
more and leaves it running exactly when it is below 100; exactly this one turn
has been added to the history. In the loops, a turn that does not leave the
game running ends the round and the game at once with the state of that turn
(after player 0 wins, player 1 does not act), and the game goes on to the next
player otherwise. -/
theorem win_check_after_every_turn (num : Fin 2) (nums : List (Fin 2)) (g : Game)
    (res : TurnResult) (fuel : Nat)
    (h : playTurn (g.player.get num).name (g.player.get num).score g.rng g.stdin = .ok res) :
    ((turn num g).1.player.get num).score = (g.player.get num).score + res.turnTotal ∧
    ((turn num g).2 = .won ↔ 100 ≤ ((turn num g).1.player.get num).score) ∧
    ((turn num g).2 = .running ↔ ((turn num g).1.player.get num).score < 100) ∧
    (turn num g).1.turns = g.turns ++ [⟨num, g.player, res.turnTotal⟩] ∧
    playRound (num :: nums) g =
      (if (turn num g).2 = .running then playRound nums (turn num g).1 else turn num g) ∧
    gameLoop (fuel + 1) g =
      (if (turn 0 g).2 = .running then
        if (turn 1 (turn 0 g).1).2 = .running then gameLoop fuel (turn 1 (turn 0 g).1).1
        else turn 1 (turn 0 g).1
      else turn 0 g) := by
  refine ⟨?_, ?_, ?_, ?_, playRound_cons num nums g, gameLoop_succ fuel g⟩
  · by_cases hw : 100 ≤ (g.player.get num).score + res.turnTotal
    · rw [turn_of_ok_won num g res h hw]; simp only [Players.get_set_same]
    · rw [turn_of_ok_running num g res h hw]; simp only [Players.get_set_same]
  · by_cases hw : 100 ≤ (g.player.get num).score + res.turnTotal
    · rw [turn_of_ok_won num g res h hw]
      simp only [Players.get_set_same, true_iff]
      exact hw
    · rw [turn_of_ok_running num g res h hw]
      simp only [Players.get_set_same]
      exact ⟨fun hc => (by cases hc), fun hc => absurd hc hw⟩
  · by_cases hw : 100 ≤ (g.player.get num).score + res.turnTotal
    · rw [turn_of_ok_won num g res h hw]
      simp only [Players.get_set_same]
      exact ⟨fun hc => (by cases hc), fun hc => absurd hw (not_le.mpr hc)⟩
    · rw [turn_of_ok_running num g res h hw]
      simp only [Players.get_set_same, true_iff]
      exact not_le.mp hw
  · by_cases hw : 100 ≤ (g.player.get num).score + res.turnTotal
    · rw [turn_of_ok_won num g res h hw]
    · rw [turn_of_ok_running num g res h hw]

/-- C3 at a player on 96 who rolls 4 and holds: the score is 100, the game is
won at once and the game loop returns after that single turn, with the die
value and the input line meant for the other player unused. At 95 the same turn
gives 99, the game keeps running and the loop goes on with the other player. -/
theorem win_check_after_every_turn_witness :
    (((turn 0 (gameAt 96)).1.player.get 0).score = 100 ∧
      (turn 0 (gameAt 96)).2 = .won ∧
      gameLoop 3 (gameAt 96) = turn 0 (gameAt 96) ∧
      (gameLoop 3 (gameAt 96)).1.turns.length = 1 ∧
      (gameLoop 3 (gameAt 96)).1.rng = rngFor [5]) ∧
    (((turn 0 (gameAt 95)).1.player.get 0).score = 99 ∧
      (turn 0 (gameAt 95)).2 = .running ∧
      gameLoop 3 (gameAt 95) = gameLoop 2 (turn 1 (turn 0 (gameAt 95)).1).1 ∧
      ((turn 1 (turn 0 (gameAt 95)).1).1.turns.map fun r => r.num) = [0, 1]) := by
  have h96 := win_check_after_every_turn 0 [1] (gameAt 96)
    ⟨4, rngFor [5], [line "h\n"], [.turnStart "A", .rolled "A" 4 4 100, .holdPrompt]⟩ 2
    (by decide)
  have h95 := win_check_after_every_turn 0 [1] (gameAt 95)
    ⟨4, rngFor [5], [line "h\n"], [.turnStart "A", .rolled "A" 4 4 99, .holdPrompt]⟩ 2
    (by decide)
  obtain ⟨a1, a2, _, _, _, a6⟩ := h96
  obtain ⟨b1, _, b3, _, _, b6⟩ := h95
  have w96 : (turn 0 (gameAt 96)).2 = .won := a2.mpr (by rw [a1]; decide)
  have r95 : (turn 0 (gameAt 95)).2 = .running := b3.mpr (by rw [b1]; decide)
  refine ⟨⟨by rw [a1]; decide, w96, ?_, ?_, ?_⟩,
    ⟨by rw [b1]; decide, r95, ?_, by decide⟩⟩
  · rw [a6, w96]; simp
  · rw [a6, w96]; decide
  · rw [a6, w96]; decide
  · rw [b6, if_pos r95, if_pos (by decide)]

/-- C4. Terminal state. When the game loop of `main` exits with a winner, the
player of the last turn is announced as winner and has 100 or more, and the
other player has less than 100, hence strictly less than the winner. In every
run, exiting or not, both scores were below 100 at the start of every turn. -/
theorem terminal_state (fuel : Nat) (rng : List Int) (stdin : List ReadResult) :
    ((main fuel rng stdin).2 = .won →
      ∃ rec, (main fuel rng stdin).1.turns.getLast? = some rec ∧
        (main fuel rng stdin).1.stdout.getLast? =
          some (Event.wins ((main fuel rng stdin).1.player.get rec.num).name
            ((main fuel rng stdin).1.player.get rec.num).score) ∧
        100 ≤ ((main fuel rng stdin).1.player.get rec.num).score ∧
        ∀ i, i ≠ rec.num →
          ((main fuel rng stdin).1.player.get i).score < 100 ∧
          ((main fuel rng stdin).1.player.get i).score <
            ((main fuel rng stdin).1.player.get rec.num).score) ∧
    (∀ rec ∈ (main fuel rng stdin).1.turns, ∀ i, (rec.before.get i).score < 100) := by
  have h := main_stopped_properly fuel rng stdin
  exact ⟨h.2.1, h.1⟩

/-- C4 at the game in which Ann rolls seventeen sixes and holds: the loop exits
after that one turn, with Ann on 102 and Bob on 0. -/
theorem terminal_state_witness :
    (main 1 (rngFor (List.replicate 17 6)) shortGameInput).2 = .won ∧
    ((main 1 (rngFor (List.replicate 17 6)) shortGameInput).1.player.get 0).score = 102 ∧
    ∃ rec, (main 1 (rngFor (List.replicate 17 6)) shortGameInput).1.turns.getLast? = some rec ∧
      (main 1 (rngFor (List.replicate 17 6)) shortGameInput).1.stdout.getLast? =
        some (Event.wins
          ((main 1 (rngFor (List.replicate 17 6)) shortGameInput).1.player.get rec.num).name
          ((main 1 (rngFor (List.replicate 17 6)) shortGameInput).1.player.get rec.num).score) ∧
      100 ≤ ((main 1 (rngFor (List.replicate 17 6)) shortGameInput).1.player.get rec.num).score ∧
      ∀ i, i ≠ rec.num →
        ((main 1 (rngFor (List.replicate 17 6)) shortGameInput).1.player.get i).score < 100 ∧
        ((main 1 (rngFor (List.replicate 17 6)) shortGameInput).1.player.get i).score <
          ((main 1 (rngFor (List.replicate 17 6)) shortGameInput).1.player.get rec.num).score :=
  ⟨by decide, by decide,
    (terminal_state 1 (rngFor (List.replicate 17 6)) shortGameInput).1 (by decide)⟩

/-- C5. Scores never decrease and are never negative. With every die outcome in
1..6: whatever `playTurn` returns is at least 0, and it does return when a 1 is
among the outcomes and the input carries a decision for every roll; each turn
of the game loop, and so the whole loop, leaves each player's score at least
what it was; and from the start of `main` every score is at least 0 at any
time. -/
theorem scores_never_decrease (ds : List Int) (hds : ∀ d ∈ ds, 1 ≤ d ∧ d ≤ 6) :
    (∀ name score stdin res,
      playTurn name score (rngFor ds) stdin = .ok res → 0 ≤ res.turnTotal) ∧
    (∀ name score stdin, 1 ∈ ds → ds.length ≤ (decisions stdin).length →
      ∃ res, playTurn name score (rngFor ds) stdin = .ok res ∧ 0 ≤ res.turnTotal) ∧
    (∀ num g i, g.rng = rngFor ds →
      (g.player.get i).score ≤ ((turn num g).1.player.get i).score) ∧
    (∀ fuel g i, g.rng = rngFor ds →
      (g.player.get i).score ≤ ((gameLoop fuel g).1.player.get i).score) ∧
    (∀ fuel stdin i, 0 ≤ ((main fuel (rngFor ds) stdin).1.player.get i).score) := by
  have hf := fairDice_rngFor ds hds
  refine ⟨fun name score stdin res h => (playTurn_bounds name score _ stdin res hf h).1.1,
    fun name score stdin h1 hlen => ?_,
    fun num g i hg => (turn_scores_mono num g (hg ▸ hf)).2 i,
    fun fuel g i hg => gameLoop_scores_mono fuel g (hg ▸ hf) i,
    fun fuel stdin i => ?_⟩
  · obtain ⟨res, hres⟩ := playTurn_returns name score (rngFor ds) stdin
      (List.mem_map.mpr ⟨1, h1, rfl⟩) (by rw [rngFor_length]; exact hlen)
    exact ⟨res, hres, (playTurn_bounds name score _ stdin res hf hres).1.1⟩
  obtain ⟨g0, _, hs, hr, hm | ⟨e, hm⟩⟩ := main_cases fuel (rngFor ds) stdin
  · rw [hm, ← hs i]
    exact gameLoop_scores_mono fuel g0 (hr ▸ hf) i
  · rw [hm]; exact le_of_eq (hs i).symm

/-- C5 at the die outcomes 5, 3, 1, 2, 1: Ann banks 8, Bob busts, Ann banks 2,
Bob busts; the scores after the session are 10 and 0, and both are at least 0. -/
theorem scores_never_decrease_witness :
    (∀ d ∈ ([5, 3, 1, 2, 1] : List Int), 1 ≤ d ∧ d ≤ 6) ∧
    ((main 2 (rngFor [5, 3, 1, 2, 1]) sessionInput).1.player.get 0).score = 10 ∧
    ((main 2 (rngFor [5, 3, 1, 2, 1]) sessionInput).1.player.get 1).score = 0 ∧
    ∀ i, 0 ≤ ((main 2 (rngFor [5, 3, 1, 2, 1]) sessionInput).1.player.get i).score :=
  ⟨by decide, by decide, by decide,
    (scores_never_decrease [5, 3, 1, 2, 1] (by decide)).2.2.2.2 2 sessionInput⟩

/-- C6. Turn-total range. In a completed `playTurn` with die outcomes in 1..6,
the turn total displayed after the k-th non-bust roll (the entry of index k-1
of the displayed totals) lies in [0, 6 * k]; the returned total lies in
[0, 6 * k] for the number k of non-bust rolls of the turn; a turn that prints
the bust message returns exactly 0; and a roll of 1 turns any running total
`t` into 0 on the spot. -/
theorem turn_total_range (name : String) (score : Int) (ds : List Int)
    (stdin : List ReadResult) (res : TurnResult)
    (hds : ∀ d ∈ ds, 1 ≤ d ∧ d ≤ 6)
    (h : playTurn name score (rngFor ds) stdin = .ok res) :
    (∀ (k : Nat) (x : Int), (displayedTotals res.out)[k]? = some x →
      0 ≤ x ∧ x ≤ 6 * ((k : Int) + 1)) ∧
    (0 ≤ res.turnTotal ∧ res.turnTotal ≤ 6 * ((displayedTotals res.out).length : Int)) ∧
    (Event.busted name ∈ res.out → res.turnTotal = 0) ∧
    (∀ (t : Int) (rest : List Int) (input : List ReadResult),
      playTurnLoop name score t (rngFor (1 :: rest)) input =
        .ok ⟨0, rngFor rest, input, [Event.busted name]⟩) := by
  obtain ⟨a1, a2, a3, _⟩ :=
    playTurn_bounds name score _ stdin res (fairDice_rngFor ds hds) h
  exact ⟨a2, a1, a3, fun t rest input => playTurnLoop_one name score t (rngFor rest) input⟩

/-- C6 at the rolls 6, 6, 2 with the answers roll, roll, hold: the displayed
totals are 6, 12, 14, within 6, 12, 18; and at the rolls 6, 6, 1, where the
total falls from 12 to 0. -/
theorem turn_total_range_witness :
    (displayedTotals
      [.turnStart "A", .rolled "A" 6 6 6, .holdPrompt, .rolled "A" 6 12 12, .holdPrompt,
        .rolled "A" 2 14 14, .holdPrompt] = [6, 12, 14]) ∧
    ((∀ (k : Nat) (x : Int), ([6, 12, 14] : List Int)[k]? = some x →
      0 ≤ x ∧ x ≤ 6 * ((k : Int) + 1)) ∧
      ((0 : Int) ≤ 14 ∧ (14 : Int) ≤ 6 * (([6, 12, 14] : List Int).length : Int))) ∧
    (playTurn "A" 0 (rngFor [6, 6, 1]) [line "r\n", line "r\n"]).map (fun r => r.turnTotal) =
      .ok 0 := by
  have h := turn_total_range "A" 0 [6, 6, 2] [line "r\n", line "r\n", line "h\n"]
    ⟨14, [], [], [.turnStart "A", .rolled "A" 6 6 6, .holdPrompt, .rolled "A" 6 12 12,
      .holdPrompt, .rolled "A" 2 14 14, .holdPrompt]⟩ (by decide) (by decide)
  exact ⟨by decide, ⟨h.1, h.2.1⟩, by decide⟩

/-- C7. Round-robin order. In every run of `main`, each turn of the history is
played by one player, and the n-th turn (counting from 0) is played by player
n mod 2; the history runs up to and including the turn of the winner. -/
theorem round_robin_order (fuel : Nat) (rng : List Int) (stdin : List ReadResult) :
    (∀ (n : Nat) (rec : TurnRecord),
      (main fuel rng stdin).1.turns[n]? = some rec → rec.num.val = n % 2) ∧
    ((main fuel rng stdin).2 = .won →
      ∃ rec, (main fuel rng stdin).1.turns.getLast? = some rec ∧
        100 ≤ ((main fuel rng stdin).1.player.get rec.num).score) := by
  refine ⟨?_, fun hw => ?_⟩
  · obtain ⟨g0, ht, _, _, hm | ⟨e, hm⟩⟩ := main_cases fuel rng stdin
    · rw [hm]
      exact gameLoop_roundRobin fuel g0 (by rw [ht]; rfl)
        (fun n rec h => by rw [ht] at h; simp at h)
    · rw [hm]
      intro n rec h
      rw [ht] at h
      simp at h
  · obtain ⟨rec, h1, _, h3, _⟩ := (main_stopped_properly fuel rng stdin).2.1 hw
    exact ⟨rec, h1, h3⟩

/-- C7 at the session of Ann and Bob: the four turns are played by 0, 1, 0, 1,
and the turn of index 2 is Ann's second turn. -/
theorem round_robin_order_witness :
    ((main 2 (rngFor [5, 3, 1, 2, 1]) sessionInput).1.turns.map fun r => r.num) =
      [0, 1, 0, 1] ∧
    (main 2 (rngFor [5, 3, 1, 2, 1]) sessionInput).1.turns[2]? =
      some ⟨0, ⟨⟨"Ann", 8⟩, ⟨"Bob", 0⟩⟩, 2⟩ ∧
    ((⟨0, ⟨⟨"Ann", 8⟩, ⟨"Bob", 0⟩⟩, 2⟩ : TurnRecord).num.val = 2 % 2) :=
  ⟨by decide, by decide,
    (round_robin_order 2 (rngFor [5, 3, 1, 2, 1]) sessionInput).1 2 _ (by decide)⟩

/-! ## Claims about `askHold` -/

/-- C9. `askHold` accepts exactly `h` or `r` after trimming. When the read
results start with any number of rejected ones (failed reads, or lines that trim
to neither `h` nor `r`) followed by a line that trims to `h` or to `r`, `askHold`
answers from that first accepted line, `true` for `h` and `false` for `r`, and
leaves the input after it unread; each rejected read result costs one prompt
and one complaint and does not change the answer. -/
theorem askHold_accepts_h_or_r (pre rest : List ReadResult) (r : ReadResult)
    (hpre : ∀ x ∈ pre, rejected x = true)
    (hr : r.failed = false)
    (hv : trimSpace r.text = "h" ∨ trimSpace r.text = "r") :
    ∃ hold, askHold (pre ++ r :: rest) =
        .ok (hold, rest, reprompts pre ++ [Event.holdPrompt]) ∧
      (trimSpace r.text = "h" → hold = true) ∧
      (trimSpace r.text = "r" → hold = false) := by
  induction pre with
  | nil =>
    rcases hv with hh | hr2
    · exact ⟨true, askHold_h r rest hr hh, fun _ => rfl,
        fun h => absurd (hh.symm.trans h) (by decide)⟩
    · exact ⟨false, askHold_r r rest hr hr2,
        fun h => absurd (hr2.symm.trans h) (by decide), fun _ => rfl⟩
  | cons x pre ih =>
    obtain ⟨hold, h1, h2, h3⟩ := ih (fun y hy => hpre y (by simp [hy]))
    refine ⟨hold, ?_, h2, h3⟩
    rcases (rejected_iff x).mp (hpre x (by simp)) with hx | ⟨hh, hr2⟩
    · rw [List.cons_append, askHold_failed x _ hx, h1]
      simp [reprompts, hx]
    · by_cases hx : x.failed = true
      · rw [List.cons_append, askHold_failed x _ hx, h1]
        simp [reprompts, hx]
      · have hx : x.failed = false := by simpa using hx
        rw [List.cons_append, askHold_other x _ hx hh hr2, h1]
        simp [reprompts, hx]

/-- C9 at the read results `H`, `hold`, `x`, an empty line, a failed read, then
` h ` and `r`: the five first are rejected, the answer is "hold", and the `r`
after it stays unread; with ` r` in place of ` h ` the answer is "roll". -/
theorem askHold_accepts_h_or_r_witness :
    (∀ x ∈ [line "H\n", line "hold\n", line "x\n", line "\n", readError],
      rejected x = true) ∧
    askHold ([line "H\n", line "hold\n", line "x\n", line "\n", readError] ++
        line " h \n" :: [line "r\n"]) =
      .ok (true, [line "r\n"],
        reprompts [line "H\n", line "hold\n", line "x\n", line "\n", readError] ++
          [Event.holdPrompt]) ∧
    askHold ([readError, line "hr\n"] ++ line " r\n" :: []) =
      .ok (false, [], reprompts [readError, line "hr\n"] ++ [Event.holdPrompt]) := by
  obtain ⟨b1, e1, h1, _⟩ := askHold_accepts_h_or_r
    [line "H\n", line "hold\n", line "x\n", line "\n", readError] [line "r\n"] (line " h \n")
    (by decide) (by decide) (by decide)
  obtain ⟨b2, e2, _, h2⟩ := askHold_accepts_h_or_r
    [readError, line "hr\n"] [] (line " r\n") (by decide) (by decide) (by decide)
  rw [h1 (by decide)] at e1
  rw [h2 (by decide)] at e2
  exact ⟨by decide, e1, e2⟩

/-- C10. An invalid response consumes no turn state transition. Inserting any
number of rejected read results (failed reads, or lines that trim to neither
`h` nor `r`) at any place of the input of a turn, in particular before a valid
response, changes neither the value `playTurn` returns, nor the generator
values it leaves unused (so neither the number of rolls made), nor the turn
totals displayed, nor the decisions left in the unread input; and a turn that
stops for lack of input or of die values does so in both cases. -/
theorem invalid_response_changes_nothing (name : String) (score : Int) (rng : List Int)
    (before junk after : List ReadResult)
    (hjunk : ∀ x ∈ junk, rejected x = true) :
    (playTurn name score rng (before ++ junk ++ after)).map turnView =
      (playTurn name score rng (before ++ after)).map turnView := by
  apply playTurn_decisions_congr
  rw [decisions_append, decisions_append, decisions_append, decisions_of_invalid junk hjunk,
    List.append_nil]

/-- C10 at the rolls 5, 3 with `x` and a failed read inserted before the
"hold": with and without them the turn makes two rolls, displays 5 and 8, and
returns 8. -/
theorem invalid_response_changes_nothing_witness :
    (∀ x ∈ [line "x\n", readError], rejected x = true) ∧
    (playTurn "A" 0 (rngFor [5, 3, 6]) ([line "r\n"] ++ [line "x\n", readError] ++
        [line "h\n"])).map turnView =
      (playTurn "A" 0 (rngFor [5, 3, 6]) ([line "r\n"] ++ [line "h\n"])).map turnView ∧
    (playTurn "A" 0 (rngFor [5, 3, 6]) ([line "r\n"] ++ [line "h\n"])).map turnView =
      .ok (8, rngFor [6], [5, 8], []) :=
  ⟨by decide,
    invalid_response_changes_nothing "A" 0 (rngFor [5, 3, 6]) [line "r\n"]
      [line "x\n", readError] [line "h\n"] (by decide),
    by decide⟩

/-! ## Facts about trimming and `getPlayerName` -/

theorem getLast?_dropWhile_imp {α : Type} (p : α → Bool) :
    ∀ (l : List α) (c : α), (l.dropWhile p).getLast? = some c → l.getLast? = some c
  | [], _, h => by simp at h
  | x :: xs, c, h => by
    rw [List.dropWhile_cons] at h
    by_cases hx : p x = true
    · rw [if_pos hx] at h
      have ih := getLast?_dropWhile_imp p xs c h
      cases xs with
      | nil => simp at ih
      | cons y ys => simpa [List.getLast?_cons_cons] using ih
    · rw [if_neg hx] at h
      exact h

theorem head?_dropWhile_false {α : Type} (p : α → Bool) (l : List α) (c : α)
    (h : (l.dropWhile p).head? = some c) : p c = false := by
  have := List.head?_dropWhile_not p l
  rw [h] at this
  exact this

/-- Trimmed text does not start with white space. -/
theorem trimChars_head (cs : List Char) (c : Char) (h : (trimChars cs).head? = some c) :
    isSpace c = false := by
  unfold trimChars at h
  rw [List.head?_reverse] at h
  have h1 := getLast?_dropWhile_imp isSpace _ c h
  rw [List.getLast?_reverse] at h1
  exact head?_dropWhile_false isSpace cs c h1

/-- Trimmed text does not end with white space. -/
theorem trimChars_last (cs : List Char) (c : Char) (h : (trimChars cs).getLast? = some c) :
    isSpace c = false := by
  unfold trimChars at h
  rw [List.getLast?_reverse] at h
  exact head?_dropWhile_false isSpace _ c h

/-- A non-empty result of `trimSpace` is a proper name. -/
theorem properName_trimSpace (s : String) (h : trimSpace s ≠ "") : ProperName (trimSpace s) :=
  ⟨h, fun c hc => trimChars_head s.data c hc, fun c hc => trimChars_last s.data c hc⟩

theorem rejectedName_iff (r : ReadResult) :
    rejectedName r = true ↔ r.failed = true ∨ trimSpace r.text = "" := by
  simp [rejectedName]

/-- Unfolding of `getPlayerName` on a failed read. -/
theorem getPlayerName_failed (num : Int) (r : ReadResult) (s : List ReadResult)
    (hf : r.failed = true) :
    getPlayerName num (r :: s) =
      match getPlayerName num s with
      | .error e => .error e
      | .ok (name, rest, out) =>
        .ok (name, rest, Event.namePrompt (num + 1) :: Event.nameReadError :: out) := by
  rw [getPlayerName]; simp [hf]

/-- Unfolding of `getPlayerName` on a line that trims to nothing. -/
theorem getPlayerName_empty (num : Int) (r : ReadResult) (s : List ReadResult)
    (hf : r.failed = false) (he : trimSpace r.text = "") :
    getPlayerName num (r :: s) =
      match getPlayerName num s with
      | .error e => .error e
      | .ok (name, rest, out) =>
        .ok (name, rest, Event.namePrompt (num + 1) :: Event.nameEmpty :: out) := by
  rw [getPlayerName]; simp [hf, he]

/-- Unfolding of `getPlayerName` on a line with a name. -/
theorem getPlayerName_name (num : Int) (r : ReadResult) (s : List ReadResult)
    (hf : r.failed = false) (hn : trimSpace r.text ≠ "") :
    getPlayerName num (r :: s) = .ok (trimSpace r.text, s, [Event.namePrompt (num + 1)]) := by
  rw [getPlayerName]; simp [hf, hn]

/-- Whatever `getPlayerName` returns is a proper name. -/
theorem getPlayerName_proper (num : Int) : ∀ (s rest : List ReadResult) (name : String)
    (out : List Event), getPlayerName num s = .ok (name, rest, out) → ProperName name
  | [], _, _, _, h => by simp [getPlayerName] at h
  | r :: s, rest, name, out, h => by
    have step : ∀ (c : Event),
        (match getPlayerName num s with
          | .error e => (.error e : Except Halt (String × List ReadResult × List Event))
          | .ok (name, rest, out) => .ok (name, rest, Event.namePrompt (num + 1) :: c :: out)) =
          .ok (name, rest, out) → ProperName name := by
      intro c h
      cases hN : getPlayerName num s with
      | error e => rw [hN] at h; cases h
      | ok v =>
        obtain ⟨name1, rest1, out1⟩ := v
        rw [hN] at h
        cases h
        exact getPlayerName_proper num s rest name out1 hN
    by_cases hf : r.failed = true
    · rw [getPlayerName_failed num r s hf] at h
      exact step _ h
    · have hf : r.failed = false := by simpa using hf
      by_cases he : trimSpace r.text = ""
      · rw [getPlayerName_empty num r s hf he] at h
        exact step _ h
      · rw [getPlayerName_name num r s hf he] at h
        cases h
        exact properName_trimSpace r.text he

/-! ## Claim about `getPlayerName` -/

/-- C11. `getPlayerName` rejects empty and whitespace-only names. When the read
results start with any number of rejected ones (failed reads, or lines whose
trimmed text is empty) followed by a line whose trimmed text is not empty,
`getPlayerName` returns the trimmed text of that first accepted line and leaves
the input after it unread; each rejected read result costs one prompt and one
complaint. Every name `getPlayerName` returns, on any input, is non-empty and
neither starts nor ends with white space. -/
theorem getPlayerName_first_nonempty (num : Int) (pre rest : List ReadResult)
    (r : ReadResult)
    (hpre : ∀ x ∈ pre, rejectedName x = true)
    (hr : r.failed = false)
    (hne : trimSpace r.text ≠ "") :
    getPlayerName num (pre ++ r :: rest) =
      .ok (trimSpace r.text, rest, nameReprompts num pre ++ [Event.namePrompt (num + 1)]) ∧
    ProperName (trimSpace r.text) ∧
    (∀ (s rest1 : List ReadResult) (name : String) (out : List Event),
      getPlayerName num s = .ok (name, rest1, out) → ProperName name) := by
  refine ⟨?_, properName_trimSpace r.text hne, getPlayerName_proper num⟩
  induction pre with
  | nil => exact getPlayerName_name num r rest hr hne
  | cons x pre ih =>
    have ih := ih (fun y hy => hpre y (by simp [hy]))
    by_cases hx : x.failed = true
    · rw [List.cons_append, getPlayerName_failed num x _ hx, ih]
      simp [nameReprompts, hx]
    · have hx : x.failed = false := by simpa using hx
      have he : trimSpace x.text = "" := by
        rcases (rejectedName_iff x).mp (hpre x (by simp)) with h | h
        · rw [hx] at h; cases h
        · exact h
      rw [List.cons_append, getPlayerName_empty num x _ hx he, ih]
      simp [nameReprompts, hx]

/-- C11 at the read results: an empty line, a line of three blanks, a failed
read, then `  Ann Lee ` and `Bob`: the first three are rejected, the name is
`Ann Lee`, and `Bob` stays unread. -/
theorem getPlayerName_first_nonempty_witness :
    (∀ x ∈ [line "\n", line "   \n", readError], rejectedName x = true) ∧
    trimSpace "  Ann Lee \n" = "Ann Lee" ∧
    getPlayerName 0 ([line "\n", line "   \n", readError] ++
        line "  Ann Lee \n" :: [line "Bob\n"]) =
      .ok (trimSpace "  Ann Lee \n", [line "Bob\n"],
        nameReprompts 0 [line "\n", line "   \n", readError] ++ [Event.namePrompt (0 + 1)]) :=
  ⟨by decide, by decide,
    (getPlayerName_first_nonempty 0 [line "\n", line "   \n", readError] [line "Bob\n"]
      (line "  Ann Lee \n") (by decide) (by decide) (by decide)).1⟩

/-! ## Claims about what `playTurn` returns and what a turn changes -/

/-- C12. The doc comment of `playTurn` promises the new score, but the function
returns the turn total: called for a player on 10 who rolls a 5 and holds, it
returns 5, not 15; the new score 15 is formed by `main`, which adds the
returned value to the score. -/
theorem playTurn_returns_turn_total_not_new_score :
    (playTurn "A" 10 (rngFor [5]) [line "h\n"]).map (fun r => r.turnTotal) = .ok 5 ∧
    (5 : Int) ≠ 10 + 5 ∧
    ((turn 0 (startGame ⟨⟨"A", 10⟩, ⟨"B", 0⟩⟩ (rngFor [5]) [line "h\n"] [])).1.player.get 0).score
      = 15 := by
  decide

/-- The roll values displayed in a completed roll loop with die outcomes in
1..6 lie in 2..6. -/
theorem playTurnLoop_rolled_range (name : String) (score : Int) :
    ∀ (rng : List Int) (t : Int) (stdin : List ReadResult) (res : TurnResult),
    FairDice rng → playTurnLoop name score t rng stdin = .ok res →
    ∀ (n : String) (r x p : Int), Event.rolled n r x p ∈ res.out → 2 ≤ r ∧ r ≤ 6
  | [], _, _, _, _, h => by simp [playTurnLoop] at h
  | g :: rng, t, stdin, res, hf, h => by
    have hg := hf g (by simp)
    have hf1 : FairDice rng := fun x hx => hf x (by simp [hx])
    have hask : ∀ (hold : Bool) (stdin1 : List ReadResult) (asked : List Event),
        askHold stdin = .ok (hold, stdin1, asked) →
        ∀ (n : String) (r x p : Int), Event.rolled n r x p ∉ asked := by
      intro hold stdin1 asked hA n r x p hm
      rcases askHold_out_events stdin stdin1 hold asked hA _ hm with h | h | h <;> cases h
    intro n r x p hm
    rcases playTurnLoop_ok_inv name score t g rng stdin res h with
      ⟨_, rfl⟩ | ⟨hne, hold, stdin1, asked, hA, ⟨_, rfl⟩ | ⟨_, res1, hR, rfl⟩⟩
    · simp at hm
    · simp only [List.mem_cons] at hm
      rcases hm with hm | hm
      · cases hm; constructor <;> omega
      · exact absurd hm (hask hold stdin1 asked hA n r x p)
    · simp only [List.mem_append, List.mem_cons] at hm
      rcases hm with (hm | hm) | hm
      · cases hm; constructor <;> omega
      · exact absurd hm (hask hold stdin1 asked hA n r x p)
      · exact playTurnLoop_rolled_range name score rng _ stdin1 res1 hf1 hR n r x p hm

/-- C14. `roll` returns a value in [1, sides]. For `sides > 0` and a generator
result `g` with `0 ≤ g < sides`, `roll(sides)` returns `g + 1`, which lies in
1..sides, and every value of 1..sides is returned for some such `g`. In
particular `roll(6)` is in 1..6, and the rolls a completed `playTurn` displays
(the non-bust ones) are in 2..6. -/
theorem roll_in_range (sides g : Int) (hs : 0 < sides) (hg0 : 0 ≤ g) (hg : g < sides) :
    roll sides g = .ok (g + 1) ∧ 1 ≤ g + 1 ∧ g + 1 ≤ sides ∧
    (∀ v, 1 ≤ v → v ≤ sides → ∃ g1, 0 ≤ g1 ∧ g1 < sides ∧ roll sides g1 = .ok v) ∧
    (∀ g6, 0 ≤ g6 → g6 < 6 → ∃ v, roll 6 g6 = .ok v ∧ 1 ≤ v ∧ v ≤ 6) ∧
    (∀ (name : String) (score : Int) (rng : List Int) (stdin : List ReadResult)
      (res : TurnResult), FairDice rng → playTurn name score rng stdin = .ok res →
      ∀ (n : String) (r x p : Int), Event.rolled n r x p ∈ res.out → 2 ≤ r ∧ r ≤ 6) := by
  have hroll : ∀ (s x : Int), 0 < s → roll s x = .ok (x + 1) := by
    intro s x h
    simp [roll, not_le.mpr h]
  refine ⟨hroll sides g hs, by omega, by omega, fun v h1 h2 => ?_, fun g6 h1 h2 => ?_, ?_⟩
  · exact ⟨v - 1, by omega, by omega, by rw [hroll sides (v - 1) hs]; simp⟩
  · exact ⟨g6 + 1, hroll 6 g6 (by decide), by omega, by omega⟩
  · intro name score rng stdin res hf h n r x p hm
    obtain ⟨res1, h1, rfl⟩ := playTurn_ok_inv name score rng stdin res h
    simp only [List.mem_cons] at hm
    rcases hm with hm | hm
    · cases hm
    · exact playTurnLoop_rolled_range name score rng 0 stdin res1 hf h1 n r x p hm

/-- C14 at a six-sided die: the generator results 0 and 5 give the rolls 1
and 6. -/
theorem roll_in_range_witness :
    (roll 6 0 = .ok (0 + 1) ∧ (1 : Int) ≤ 0 + 1 ∧ (0 : Int) + 1 ≤ 6) ∧
    (roll 6 5 = .ok 6 ∧ (1 : Int) ≤ 5 + 1 ∧ (5 : Int) + 1 ≤ 6) := by
  have h0 := roll_in_range 6 0 (by decide) (by decide) (by decide)
  have h5 := roll_in_range 6 5 (by decide) (by decide) (by decide)
  exact ⟨⟨h0.1, h0.2.1, h0.2.2.1⟩, ⟨h5.1, h5.2.1, h5.2.2.1⟩⟩

/-- A turn leaves every name as it was. -/
theorem turn_names (num : Fin 2) (g : Game) (j : Fin 2) :
    ((turn num g).1.player.get j).name = (g.player.get j).name := by
  rcases turn_cases num g with ⟨e, _, hT⟩ | ⟨res, g1, _, hT, hp, _, _, _⟩
  · rw [hT]
  · have hg1 : turn num g = (g1, (turn num g).2) := by
      rcases hT with ⟨hT, _⟩ | ⟨hT, _⟩ <;> rw [hT]
    rw [hg1]
    show (g1.player.get j).name = _
    rw [hp]
    by_cases hj : j = num
    · subst hj; rw [Players.get_set_same]
    · rw [Players.get_set_other _ _ _ _ hj]

/-- C15. A turn changes only the acting player's score. After a turn of player
`num`, both names and the other player's score are what they were; when
`playTurn` returned, the acting player's score is the old score plus the value
returned, and when it did not, the player array is untouched. The names stay
the same through the whole game loop. -/
theorem turn_changes_only_actor_score (num : Fin 2) (g : Game) :
    (∀ j, ((turn num g).1.player.get j).name = (g.player.get j).name) ∧
    (∀ j, j ≠ num → ((turn num g).1.player.get j).score = (g.player.get j).score) ∧
    (∀ res, playTurn (g.player.get num).name (g.player.get num).score g.rng g.stdin = .ok res →
      ((turn num g).1.player.get num).score = (g.player.get num).score + res.turnTotal) ∧
    (∀ e, playTurn (g.player.get num).name (g.player.get num).score g.rng g.stdin = .error e →
      (turn num g).1.player = g.player) ∧
    (∀ fuel j, ((gameLoop fuel g).1.player.get j).name = (g.player.get j).name) := by
  refine ⟨turn_names num g, fun j hj => ?_, fun res h => ?_, fun e h => ?_, fun fuel j => ?_⟩
  · rcases turn_turns num g with ⟨hT, _⟩ | ⟨total, _, _, ho⟩
    · rw [hT]
    · rw [ho j hj]
  · by_cases hw : 100 ≤ (g.player.get num).score + res.turnTotal
    · rw [turn_of_ok_won num g res h hw]; simp only [Players.get_set_same]
    · rw [turn_of_ok_running num g res h hw]; simp only [Players.get_set_same]
  · rw [turn_of_error num g e h]
  · exact gameLoop_induction
      (fun x => ∀ j, (x.player.get j).name = (g.player.get j).name)
      (fun x => ∀ j, (x.player.get j).name = (g.player.get j).name)
      (fun r => ∀ j, (r.1.player.get j).name = (g.player.get j).name)
      (fun x hx _ j => (turn_names 0 x j).trans (hx j))
      (fun x hx _ j => (turn_names 1 x j).trans (hx j))
      (fun x hx _ j => (turn_names 0 x j).trans (hx j))
      (fun x hx _ j => (turn_names 1 x j).trans (hx j))
      (fun _ hx => hx) fuel g (fun _ => rfl) j

/-- C15 at a player A on 95 who rolls 4 and holds: A has 99 afterwards, B still
has 0, and the names are still A and B. -/
theorem turn_changes_only_actor_score_witness :
    (1 : Fin 2) ≠ 0 ∧
    ((turn 0 (gameAt 95)).1.player.get 1).score = ((gameAt 95).player.get 1).score ∧
    (turn 0 (gameAt 95)).1.player = ⟨⟨"A", 99⟩, ⟨"B", 0⟩⟩ :=
  ⟨by decide, (turn_changes_only_actor_score 0 (gameAt 95)).2.1 1 (by decide), by decide⟩

/-- Use of a turn result in front of which messages were printed. -/
theorem turnUse_prepend (pre : List Event) (r : Except Halt TurnResult) :
    (match r with
      | .error e => (.error e : Except Halt TurnResult)
      | .ok res => .ok { res with out := pre ++ res.out }).map turnUse = r.map turnUse := by
  cases r <;> rfl

theorem playTurnLoop_name_score_irrelevant (n1 n2 : String) (s1 s2 : Int) :
    ∀ (rng : List Int) (t : Int) (stdin : List ReadResult),
    (playTurnLoop n1 s1 t rng stdin).map turnUse = (playTurnLoop n2 s2 t rng stdin).map turnUse
  | [], _, _ => rfl
  | g :: rng, t, stdin => by
    rw [playTurnLoop_cons, playTurnLoop_cons]
    by_cases hg : g + 1 = 1
    · rw [if_pos hg, if_pos hg]; rfl
    · rw [if_neg hg, if_neg hg]
      cases hA : askHold stdin with
      | error e => rfl
      | ok v =>
        obtain ⟨hold, stdin1, asked⟩ := v
        cases hold with
        | true => rfl
        | false =>
          simp only [Bool.false_eq_true, if_false]
          rw [turnUse_prepend, turnUse_prepend,
            playTurnLoop_name_score_irrelevant n1 n2 s1 s2 rng _ stdin1]

/-- C18. The result of `playTurn` does not depend on who is playing or on the
score. For any two names and any two scores, on the same generator values and
input, `playTurn` returns the same turn total and leaves the same generator
values unused and the same input unread, and stops without a result for the
same reason. -/
theorem playTurn_name_score_irrelevant (n1 n2 : String) (s1 s2 : Int) (rng : List Int)
    (stdin : List ReadResult) :
    (playTurn n1 s1 rng stdin).map turnUse = (playTurn n2 s2 rng stdin).map turnUse := by
  have key := playTurnLoop_name_score_irrelevant n1 n2 s1 s2 rng 0 stdin
  unfold playTurn
  cases h1 : playTurnLoop n1 s1 0 rng stdin with
  | error e1 =>
    cases h2 : playTurnLoop n2 s2 0 rng stdin with
    | error e2 => rw [h1, h2] at key; exact key
    | ok r2 => rw [h1, h2] at key; cases key
  | ok r1 =>
    cases h2 : playTurnLoop n2 s2 0 rng stdin with
    | error e2 => rw [h1, h2] at key; cases key
    | ok r2 => rw [h1, h2] at key; exact key

/-! ## The shape of a completed turn -/

theorem prompts_append (xs ys : List Event) : prompts (xs ++ ys) = prompts xs + prompts ys := by
  induction xs with
  | nil => simp [prompts]
  | cons e es ih =>
    cases e <;> simp [prompts, ih]
    all_goals omega

theorem complaints_append (xs ys : List Event) :
    complaints (xs ++ ys) = complaints xs + complaints ys := by
  induction xs with
  | nil => simp [complaints]
  | cons e es ih =>
    cases e <;> simp [complaints, ih]
    all_goals omega

/-- One call of `askHold` prints one prompt more than it prints complaints. -/
theorem askHold_prompts : ∀ (s rest : List ReadResult) (b : Bool) (out : List Event),
    askHold s = .ok (b, rest, out) → prompts out = complaints out + 1
  | [], _, _, _, h => by simp [askHold] at h
  | r :: s, rest, b, out, h => by
    have step : ∀ (c : Event), complaints [c] = 1 → prompts [c] = 0 →
        (match askHold s with
          | .error e => (.error e : Except Halt (Bool × List ReadResult × List Event))
          | .ok (hold, rest, out) => .ok (hold, rest, Event.holdPrompt :: c :: out)) =
          .ok (b, rest, out) →
        prompts out = complaints out + 1 := by
      intro c hc hp h
      cases hA : askHold s with
      | error e => rw [hA] at h; cases h
      | ok v =>
        obtain ⟨b1, rest1, out1⟩ := v
        rw [hA] at h
        cases h
        have ih := askHold_prompts s rest b out1 hA
        have e1 : Event.holdPrompt :: c :: out1 = [Event.holdPrompt] ++ ([c] ++ out1) := rfl
        rw [e1, prompts_append, prompts_append, complaints_append, complaints_append, hc, hp,
          ih]
        simp [prompts, complaints]
        omega
    by_cases hf : r.failed = true
    · rw [askHold_failed r s hf] at h
      exact step Event.responseReadError rfl rfl h
    · have hf : r.failed = false := by simpa using hf
      by_cases hh : trimSpace r.text = "h"
      · rw [askHold_h r s hf hh] at h
        cases h; rfl
      · by_cases hr : trimSpace r.text = "r"
        · rw [askHold_r r s hf hr] at h
          cases h; rfl
        · rw [askHold_other r s hf hh hr] at h
          exact step Event.invalidResponse rfl rfl h

/-- Shape of a completed roll loop entered with the total `t`: it made the
rolls `pre` (none of them a 1) and `last`, consumed one decision per non-1
roll, "roll" after each roll of `pre`; either `last` is a 1 and the result is 0,
or `last` was answered with "hold" and the result is `t` plus all the rolls.
It printed one prompt per decision plus one per complaint, and its first
message is about a roll. -/
theorem playTurnLoop_shape (name : String) (score : Int) :
    ∀ (ds : List Int) (t : Int) (stdin : List ReadResult) (res : TurnResult),
    playTurnLoop name score t (rngFor ds) stdin = .ok res →
    ∃ (pre : List Int) (last : Int) (rest : List Int) (answers : List Bool),
      ds = pre ++ last :: rest ∧ (∀ d ∈ pre, d ≠ 1) ∧ res.rng = rngFor rest ∧
      decisions stdin = answers ++ decisions res.stdin ∧
      prompts res.out = complaints res.out + answers.length ∧
      (displayedTotals res.out).length = answers.length ∧
      (∃ e, res.out.head? = some e ∧
        (e = Event.busted name ∨ ∃ r x p, e = Event.rolled name r x p)) ∧
      ((last = 1 ∧ answers = List.replicate pre.length false ∧ res.turnTotal = 0 ∧
          Event.busted name ∈ res.out) ∨
       (last ≠ 1 ∧ answers = List.replicate pre.length false ++ [true] ∧
          res.turnTotal = t + (pre ++ [last]).sum ∧ Event.busted name ∉ res.out))
  | [], _, _, _, h => by simp [rngFor, playTurnLoop] at h
  | d :: ds, t, stdin, res, h => by
    have hd : d - 1 + 1 = d := sub_add_cancel d 1
    rw [rngFor_cons] at h
    rcases playTurnLoop_ok_inv name score t (d - 1) (rngFor ds) stdin res h with
      ⟨h1, rfl⟩ | ⟨hne, hold, stdin1, asked, hA, ⟨hh, rfl⟩ | ⟨hh, res1, hR, rfl⟩⟩
    · rw [hd] at h1
      exact ⟨[], d, ds, [], rfl, by simp, rfl, rfl, rfl, rfl, ⟨_, rfl, Or.inl rfl⟩,
        Or.inl ⟨h1, rfl, rfl, by simp⟩⟩
    · rw [hd] at hne ⊢
      subst hh
      obtain ⟨hdec, hdt⟩ := askHold_ok_inv stdin stdin1 true asked hA
      have hpr := askHold_prompts stdin stdin1 true asked hA
      refine ⟨[], d, ds, [true], rfl, by simp, rfl, hdec, ?_, ?_,
        ⟨_, rfl, Or.inr ⟨_, _, _, rfl⟩⟩, Or.inr ⟨hne, rfl, by simp, ?_⟩⟩
      · show prompts (Event.rolled name d (t + d) (score + (t + d)) :: asked) =
          complaints (Event.rolled name d (t + d) (score + (t + d)) :: asked) + 1
        simpa [prompts, complaints] using hpr
      · simp [displayedTotals, hdt]
      · intro hb
        simp only [List.mem_cons] at hb
        rcases hb with hb | hb
        · cases hb
        · exact askHold_no_busted stdin stdin1 true asked hA name hb
    · rw [hd] at hne hR ⊢
      subst hh
      obtain ⟨hdec, hdt⟩ := askHold_ok_inv stdin stdin1 false asked hA
      have hpr := askHold_prompts stdin stdin1 false asked hA
      obtain ⟨pre, last, rest, answers, e1, e2, e3, e4, e5, e6, _, e8⟩ :=
        playTurnLoop_shape name score ds (t + d) stdin1 res1 hR
      have hnb : Event.busted name ∉ Event.rolled name d (t + d) (score + (t + d)) :: asked := by
        intro hb
        simp only [List.mem_cons] at hb
        rcases hb with hb | hb
        · cases hb
        · exact askHold_no_busted stdin stdin1 false asked hA name hb
      refine ⟨d :: pre, last, rest, false :: answers, by rw [e1]; rfl, ?_, e3, ?_, ?_, ?_,
        ⟨_, rfl, Or.inr ⟨_, _, _, rfl⟩⟩, ?_⟩
      · intro x hx
        simp only [List.mem_cons] at hx
        rcases hx with hx | hx
        · rw [hx]; exact hne
        · exact e2 x hx
      · show decisions stdin = false :: answers ++ decisions res1.stdin
        rw [hdec, e4]; rfl
      · show prompts ((Event.rolled name d (t + d) (score + (t + d)) :: asked) ++ res1.out) =
          complaints ((Event.rolled name d (t + d) (score + (t + d)) :: asked) ++ res1.out) +
            (false :: answers).length
        rw [prompts_append, complaints_append, e5]
        simp only [prompts, complaints, hpr, List.length_cons]
        omega
      · show (displayedTotals ((Event.rolled name d (t + d) (score + (t + d)) :: asked) ++
          res1.out)).length = (false :: answers).length
        rw [displayedTotals_append]
        simp [displayedTotals, hdt, e6]
      · rcases e8 with ⟨l1, a1, t1, b1⟩ | ⟨l1, a1, t1, b1⟩
        · exact Or.inl ⟨l1, by rw [a1]; rfl, t1, List.mem_append_right _ b1⟩
        · refine Or.inr ⟨l1, by rw [a1]; rfl, ?_, ?_⟩
          · show res1.turnTotal = _
            rw [t1]; simp only [List.cons_append, List.sum_cons]; ring
          · intro hb
            rcases List.mem_append.mp hb with hb | hb
            · exact hnb hb
            · exact b1 hb

/-- Shape of a completed `playTurn`: the shape of its roll loop entered with 0,
behind the turn announcement. -/
theorem playTurn_shape (name : String) (score : Int) (ds : List Int)
    (stdin : List ReadResult) (res : TurnResult)
    (h : playTurn name score (rngFor ds) stdin = .ok res) :
    ∃ (pre : List Int) (last : Int) (rest : List Int) (answers : List Bool),
      ds = pre ++ last :: rest ∧ (∀ d ∈ pre, d ≠ 1) ∧ res.rng = rngFor rest ∧
      decisions stdin = answers ++ decisions res.stdin ∧
      prompts res.out = complaints res.out + answers.length ∧
      (displayedTotals res.out).length = answers.length ∧
      (∃ e tail, res.out = Event.turnStart name :: e :: tail ∧
        (e = Event.busted name ∨ ∃ r x p, e = Event.rolled name r x p)) ∧
      ((last = 1 ∧ answers = List.replicate pre.length false ∧ res.turnTotal = 0 ∧
          Event.busted name ∈ res.out) ∨
       (last ≠ 1 ∧ answers = List.replicate pre.length false ++ [true] ∧
          res.turnTotal = (pre ++ [last]).sum ∧ Event.busted name ∉ res.out)) := by
  obtain ⟨res1, h1, rfl⟩ := playTurn_ok_inv name score _ stdin res h
  obtain ⟨pre, last, rest, answers, e1, e2, e3, e4, e5, e6, ⟨e, he, hk⟩, e8⟩ :=
    playTurnLoop_shape name score ds 0 stdin res1 h1
  refine ⟨pre, last, rest, answers, e1, e2, e3, e4, ?_, ?_, ?_, ?_⟩
  · show prompts (Event.turnStart name :: res1.out) =
      complaints (Event.turnStart name :: res1.out) + answers.length
    simpa [prompts, complaints] using e5
  · show (displayedTotals (Event.turnStart name :: res1.out)).length = _
    simpa [displayedTotals] using e6
  · cases hout : res1.out with
    | nil => rw [hout] at he; cases he
    | cons e0 tail =>
      rw [hout] at he
      simp only [List.head?_cons, Option.some.injEq] at he
      exact ⟨e, tail, by rw [he], hk⟩
  · rcases e8 with ⟨l1, a1, t1, b1⟩ | ⟨l1, a1, t1, b1⟩
    · exact Or.inl ⟨l1, a1, t1, List.mem_cons_of_mem _ b1⟩
    · refine Or.inr ⟨l1, a1, by show res1.turnTotal = _; rw [t1]; simp, ?_⟩
      intro hb
      simp only [List.mem_cons] at hb
      rcases hb with hb | hb
      · cases hb
      · exact b1 hb

/-- Rolls in 2..6 add up to between 2 and 6 points each. -/
theorem sum_bounds : ∀ (l : List Int), (∀ d ∈ l, 2 ≤ d ∧ d ≤ 6) →
    2 * (l.length : Int) ≤ l.sum ∧ l.sum ≤ 6 * (l.length : Int)
  | [], _ => by simp
  | d :: l, h => by
    have hd := h d (by simp)
    have ih := sum_bounds l (fun x hx => h x (by simp [hx]))
    simp only [List.sum_cons, List.length_cons]
    push_cast
    constructor <;> omega

/-! ## Claims about the course of a turn -/

/-- C13. The hold prompt occurs only after a non-bust roll. A completed
`playTurn` made the rolls `used` (at least one), of which only the last can be
a 1; it consumed exactly one decision per non-1 roll, and printed one prompt
per decision plus one per complaint; its first message after the turn
announcement is about a roll, not a prompt. Without a die value `playTurn`
stops before reading anything, and a roll of 1 ends the roll loop at once, with
the input untouched and no prompt printed. -/
theorem hold_prompt_only_after_roll (name : String) (score : Int) (ds : List Int)
    (stdin : List ReadResult) (res : TurnResult)
    (h : playTurn name score (rngFor ds) stdin = .ok res) :
    (∃ (used rest : List Int) (answers : List Bool),
      ds = used ++ rest ∧ res.rng = rngFor rest ∧ used ≠ [] ∧
      (∀ d ∈ used.dropLast, d ≠ 1) ∧
      decisions stdin = answers ++ decisions res.stdin ∧
      answers.length = (used.filter (fun d => decide (d ≠ 1))).length ∧
      prompts res.out = complaints res.out + answers.length) ∧
    (∃ e tail, res.out = Event.turnStart name :: e :: tail ∧
      (e = Event.busted name ∨ ∃ r x p, e = Event.rolled name r x p)) ∧
    (∀ input, playTurn name score [] input = .error .noRandom) ∧
    (∀ (t : Int) (more : List Int) (input : List ReadResult),
      playTurnLoop name score t (rngFor (1 :: more)) input =
        .ok ⟨0, rngFor more, input, [Event.busted name]⟩) := by
  obtain ⟨pre, last, rest, answers, e1, e2, e3, e4, e5, _, e7, e8⟩ :=
    playTurn_shape name score ds stdin res h
  refine ⟨⟨pre ++ [last], rest, answers, by rw [e1]; simp, e3, by simp, ?_, e4, ?_, e5⟩, e7,
    fun input => rfl, fun t more input => playTurnLoop_one name score t (rngFor more) input⟩
  · rw [List.dropLast_concat]; exact e2
  · have hpre : pre.filter (fun d => decide (d ≠ 1)) = pre :=
      List.filter_eq_self.mpr (fun d hd => by simpa using e2 d hd)
    rw [List.filter_append, hpre]
    rcases e8 with ⟨l1, a1, _, _⟩ | ⟨l1, a1, _, _⟩
    · rw [a1, l1]; simp
    · rw [a1]; simp [l1]

/-- C13 at the rolls 5, 3, 1 with the input "roll", a rejected line, "roll":
three rolls are made and two decisions consumed, with three prompts and one
complaint. -/
theorem hold_prompt_only_after_roll_witness :
    playTurn "A" 0 (rngFor [5, 3, 1, 4]) [line "r\n", line "x\n", line "r\n", line "h\n"] =
      .ok ⟨0, rngFor [4], [line "h\n"],
        [.turnStart "A", .rolled "A" 5 5 5, .holdPrompt, .rolled "A" 3 8 8, .holdPrompt,
          .invalidResponse, .holdPrompt, .busted "A"]⟩ ∧
    ∃ (used rest : List Int) (answers : List Bool),
      [5, 3, 1, 4] = used ++ rest ∧ rngFor [4] = rngFor rest ∧ used ≠ [] ∧
      (∀ d ∈ used.dropLast, d ≠ 1) ∧
      decisions [line "r\n", line "x\n", line "r\n", line "h\n"] =
        answers ++ decisions [line "h\n"] ∧
      answers.length = (used.filter (fun d => decide (d ≠ 1))).length ∧
      prompts [.turnStart "A", .rolled "A" 5 5 5, .holdPrompt, .rolled "A" 3 8 8, .holdPrompt,
          .invalidResponse, .holdPrompt, .busted "A"] =
        complaints [.turnStart "A", .rolled "A" 5 5 5, .holdPrompt, .rolled "A" 3 8 8,
          .holdPrompt, .invalidResponse, .holdPrompt, .busted "A"] + answers.length :=
  ⟨by decide,
    (hold_prompt_only_after_roll "A" 0 [5, 3, 1, 4]
      [line "r\n", line "x\n", line "r\n", line "h\n"]
      ⟨0, rngFor [4], [line "h\n"],
        [.turnStart "A", .rolled "A" 5 5 5, .holdPrompt, .rolled "A" 3 8 8, .holdPrompt,
          .invalidResponse, .holdPrompt, .busted "A"]⟩ (by decide)).1⟩

/-- C16. A held turn is never worth 0. For a completed `playTurn` with die
outcomes in 1..6 that made the rolls `used`: it returns 0 exactly when the last
roll was a 1, which is exactly when the bust message is printed; otherwise it
was ended by holding after `k = used.length ≥ 1` rolls in 2..6 and returns
their sum, a value in [2 * k, 6 * k], hence at least 2. So in the game loop the
score of the acting player is unchanged by a busted turn and strictly greater
after a held turn. -/
theorem held_turn_never_worth_zero (name : String) (score : Int) (ds : List Int)
    (stdin : List ReadResult) (res : TurnResult)
    (hds : ∀ d ∈ ds, 1 ≤ d ∧ d ≤ 6)
    (h : playTurn name score (rngFor ds) stdin = .ok res) :
    (∃ (used rest : List Int), ds = used ++ rest ∧ res.rng = rngFor rest ∧
      (res.turnTotal = 0 ↔ used.getLast? = some 1) ∧
      (Event.busted name ∈ res.out ↔ used.getLast? = some 1) ∧
      (used.getLast? ≠ some 1 →
        res.turnTotal = used.sum ∧ (∀ d ∈ used, 2 ≤ d ∧ d ≤ 6) ∧ 1 ≤ used.length ∧
        2 * (used.length : Int) ≤ res.turnTotal ∧ res.turnTotal ≤ 6 * (used.length : Int) ∧
        2 ≤ res.turnTotal)) ∧
    (∀ (num : Fin 2) (g : Game), (g.player.get num).name = name →
      (g.player.get num).score = score → g.rng = rngFor ds → g.stdin = stdin →
      (Event.busted name ∈ res.out →
        ((turn num g).1.player.get num).score = (g.player.get num).score) ∧
      (Event.busted name ∉ res.out →
        (g.player.get num).score < ((turn num g).1.player.get num).score)) := by
  obtain ⟨pre, last, rest, answers, e1, e2, e3, _, _, _, _, e8⟩ :=
    playTurn_shape name score ds stdin res h
  have hlast : (pre ++ [last]).getLast? = some last := List.getLast?_concat pre
  have hused : ∀ d ∈ pre ++ [last], 1 ≤ d ∧ d ≤ 6 := by
    intro d hd
    apply hds d
    rw [e1]
    rcases List.mem_append.mp hd with hd | hd
    · exact List.mem_append_left _ hd
    · exact List.mem_append_right _ (by rw [List.mem_singleton.mp hd]; simp)
  have hheld : last ≠ 1 → (∀ d ∈ pre ++ [last], 2 ≤ d ∧ d ≤ 6) := by
    intro hl d hd
    have hr := hused d hd
    have hne : d ≠ 1 := by
      rcases List.mem_append.mp hd with hd | hd
      · exact e2 d hd
      · rw [List.mem_singleton.mp hd]; exact hl
    constructor <;> omega
  have hsum : last ≠ 1 → 2 ≤ (pre ++ [last]).sum ∧
      2 * (((pre ++ [last]).length : Nat) : Int) ≤ (pre ++ [last]).sum ∧
      (pre ++ [last]).sum ≤ 6 * (((pre ++ [last]).length : Nat) : Int) := by
    intro hl
    have hb := sum_bounds (pre ++ [last]) (hheld hl)
    have hlen : 1 ≤ (((pre ++ [last]).length : Nat) : Int) := by simp
    exact ⟨by omega, hb.1, hb.2⟩
  have hzero : res.turnTotal = 0 ↔ last = 1 := by
    rcases e8 with ⟨l1, _, t1, _⟩ | ⟨l1, _, t1, _⟩
    · exact ⟨fun _ => l1, fun _ => t1⟩
    · refine ⟨fun h0 => ?_, fun hl => absurd hl l1⟩
      have := (hsum l1).1
      rw [← t1, h0] at this
      omega
  have hbust : Event.busted name ∈ res.out ↔ last = 1 := by
    rcases e8 with ⟨l1, _, _, b1⟩ | ⟨l1, _, _, b1⟩
    · exact ⟨fun _ => l1, fun _ => b1⟩
    · exact ⟨fun hb => absurd hb b1, fun hl => absurd hl l1⟩
  refine ⟨⟨pre ++ [last], rest, by rw [e1]; simp, e3, ?_, ?_, ?_⟩, ?_⟩
  · rw [hlast, hzero]; simp
  · rw [hlast, hbust]; simp
  · intro hl
    have hl : last ≠ 1 := fun hc => hl (by rw [hlast, hc])
    have ht : res.turnTotal = (pre ++ [last]).sum := by
      rcases e8 with ⟨l1, _, _, _⟩ | ⟨_, _, t1, _⟩
      · exact absurd l1 hl
      · exact t1
    have hs := hsum hl
    exact ⟨ht, hheld hl, by simp, by rw [ht]; exact hs.2.1, by rw [ht]; exact hs.2.2,
      by rw [ht]; exact hs.1⟩
  · intro num g hname hscore hrng hstdin
    have hP : playTurn (g.player.get num).name (g.player.get num).score g.rng g.stdin =
        .ok res := by rw [hname, hscore, hrng, hstdin]; exact h
    have hnew : ((turn num g).1.player.get num).score =
        (g.player.get num).score + res.turnTotal := by
      by_cases hw : 100 ≤ (g.player.get num).score + res.turnTotal
      · rw [turn_of_ok_won num g res hP hw]; simp only [Players.get_set_same]
      · rw [turn_of_ok_running num g res hP hw]; simp only [Players.get_set_same]
    refine ⟨fun hb => ?_, fun hb => ?_⟩
    · rw [hnew, hzero.mpr (hbust.mp hb)]; simp
    · have hl : last ≠ 1 := fun hc => hb (hbust.mpr hc)
      have ht : res.turnTotal = (pre ++ [last]).sum := by
        rcases e8 with ⟨l1, _, _, _⟩ | ⟨_, _, t1, _⟩
        · exact absurd l1 hl
        · exact t1
      have := (hsum hl).1
      rw [hnew, ht]
      omega

/-- C16 at the rolls 2, 6 held (worth 8, between 4 and 12). -/
theorem held_turn_never_worth_zero_witness :
    (∀ d ∈ ([2, 6, 1] : List Int), 1 ≤ d ∧ d ≤ 6) ∧
    playTurn "A" 7 (rngFor [2, 6, 1]) [line "r\n", line "h\n"] =
      .ok ⟨8, rngFor [1], [],
        [.turnStart "A", .rolled "A" 2 2 9, .holdPrompt, .rolled "A" 6 8 15, .holdPrompt]⟩ ∧
    ∃ (used rest : List Int), [2, 6, 1] = used ++ rest ∧ rngFor [1] = rngFor rest ∧
      ((8 : Int) = 0 ↔ used.getLast? = some 1) ∧
      (Event.busted "A" ∈
          [Event.turnStart "A", .rolled "A" 2 2 9, .holdPrompt, .rolled "A" 6 8 15,
            .holdPrompt] ↔
        used.getLast? = some 1) ∧
      (used.getLast? ≠ some 1 →
        (8 : Int) = used.sum ∧ (∀ d ∈ used, 2 ≤ d ∧ d ≤ 6) ∧ 1 ≤ used.length ∧
        2 * (used.length : Int) ≤ 8 ∧ (8 : Int) ≤ 6 * (used.length : Int) ∧ (2 : Int) ≤ 8) :=
  ⟨by decide, by decide,
    (held_turn_never_worth_zero "A" 7 [2, 6, 1] [line "r\n", line "h\n"]
      ⟨8, rngFor [1], [],
        [.turnStart "A", .rolled "A" 2 2 9, .holdPrompt, .rolled "A" 6 8 15, .holdPrompt]⟩
      (by decide) (by decide)).1⟩

/-! ## A game that never ends -/

theorem rngFor_replicate_one (n : Nat) : rngFor (List.replicate n 1) = List.replicate n 0 := by
  simp [rngFor]

/-- With no die value left a turn stops at once and changes nothing. -/
theorem turn_without_dice (num : Fin 2) (g : Game) (h : g.rng = []) :
    turn num g = (g, .halted .noRandom) := by
  apply turn_of_error
  rw [h]; rfl

/-- A turn that starts from score 0 and rolls a 1 keeps the game running, with
both scores as they were, one die value used and one more turn in the history. -/
theorem turn_on_one (num : Fin 2) (g : Game) (rng : List Int) (h : g.rng = 0 :: rng)
    (hs : ∀ i, (g.player.get i).score = 0) :
    (turn num g).2 = .running ∧ (turn num g).1.rng = rng ∧
    (∀ i, ((turn num g).1.player.get i).score = 0) ∧
    (turn num g).1.turns.length = g.turns.length + 1 := by
  have hP : playTurn (g.player.get num).name (g.player.get num).score g.rng g.stdin =
      .ok ⟨0, rng, g.stdin, [Event.turnStart (g.player.get num).name,
        Event.busted (g.player.get num).name]⟩ := by
    rw [h]
    simp [playTurn, playTurnLoop_cons]
  have hw : ¬ 100 ≤ (g.player.get num).score + (0 : Int) := by rw [hs num]; decide
  rw [turn_of_ok_running num g _ hP hw]
  refine ⟨rfl, rfl, fun i => ?_, by simp⟩
  by_cases hi : i = num
  · subst hi
    simp only [Players.get_set_same]
    rw [hs i]; rfl
  · simp only [Players.get_set_other _ _ _ _ hi]
    exact hs i

/-- The game loop on `n` rolls of 1, from scores 0: it never declares a winner,
the scores stay 0, at most `n` turns are played, and with fuel for them exactly
`n` turns are played before the die values run out. -/
theorem gameLoop_all_ones : ∀ (fuel n : Nat) (g : Game),
    (∀ i, (g.player.get i).score = 0) → g.rng = List.replicate n 0 →
    (gameLoop fuel g).2 ≠ .won ∧
    (∀ i, ((gameLoop fuel g).1.player.get i).score = 0) ∧
    (gameLoop fuel g).1.turns.length ≤ g.turns.length + n ∧
    (n < 2 * fuel → (gameLoop fuel g).1.turns.length = g.turns.length + n ∧
      (gameLoop fuel g).2 = .halted .noRandom)
  | 0, n, g, hs, _ =>
    ⟨fun h => (by cases h), hs, Nat.le_add_right _ _, fun h => absurd h (by omega)⟩
  | fuel + 1, 0, g, hs, hr => by
    have hT := turn_without_dice 0 g hr
    rw [gameLoop_succ, hT]
    exact ⟨fun h => (by cases h), hs, Nat.le_refl _, fun _ => ⟨rfl, rfl⟩⟩
  | fuel + 1, 1, g, hs, hr => by
    obtain ⟨a1, a2, a3, a4⟩ := turn_on_one 0 g [] hr hs
    have hT := turn_without_dice 1 (turn 0 g).1 a2
    have hne : ¬ (turn 1 (turn 0 g).1).2 = .running := by
      rw [hT]; intro hc; cases hc
    rw [gameLoop_succ, if_pos a1, if_neg hne, hT]
    exact ⟨fun h => (by cases h), a3, Nat.le_of_eq a4, fun _ => ⟨a4, rfl⟩⟩
  | fuel + 1, n + 2, g, hs, hr => by
    obtain ⟨a1, a2, a3, a4⟩ := turn_on_one 0 g (List.replicate (n + 1) 0) hr hs
    obtain ⟨b1, b2, b3, b4⟩ := turn_on_one 1 (turn 0 g).1 (List.replicate n 0) a2 a3
    obtain ⟨c1, c2, c3, c4⟩ := gameLoop_all_ones fuel n (turn 1 (turn 0 g).1).1 b3 b2
    rw [gameLoop_succ, if_pos a1, if_pos b1]
    refine ⟨c1, c2, by omega, fun hn => ?_⟩
    obtain ⟨d1, d2⟩ := c4 (by omega)
    exact ⟨by omega, d2⟩

/-- When both names can be read, `main` enters the game loop with them. -/
theorem main_of_names (fuel : Nat) (rng : List Int) (stdin rest : List ReadResult)
    (ps : Players) (out : List Event)
    (h : readNames [0, 1] ⟨⟨"", 0⟩, ⟨"", 0⟩⟩ stdin = .ok (ps, rest, out)) :
    main fuel rng stdin = gameLoop fuel (startGame ps rng rest (Event.rules :: out)) ∧
    ∀ i, (ps.get i).score = 0 := by
  refine ⟨by simp only [main, h], fun i => ?_⟩
  rw [readNames_scores _ _ _ _ _ _ h i]
  fin_cases i <;> rfl

/-- C17. The game need not end. When every roll is a 1, whatever the fuel and
the input, after the `n` first rolls `main` has declared no winner and both
scores are 0, with at most `n` turns played; and when the two names can be read
and the fuel suffices, exactly `n` turns have been played when the `n` die
values are used up. So no number of turns reaches the win condition. -/
theorem game_need_not_end (n fuel : Nat) (stdin : List ReadResult) :
    (main fuel (rngFor (List.replicate n 1)) stdin).2 ≠ .won ∧
    (∀ i, ((main fuel (rngFor (List.replicate n 1)) stdin).1.player.get i).score = 0) ∧
    (main fuel (rngFor (List.replicate n 1)) stdin).1.turns.length ≤ n ∧
    ((∃ v, readNames [0, 1] ⟨⟨"", 0⟩, ⟨"", 0⟩⟩ stdin = .ok v) → n < 2 * fuel →
      (main fuel (rngFor (List.replicate n 1)) stdin).1.turns.length = n ∧
      (main fuel (rngFor (List.replicate n 1)) stdin).2 = .halted .noRandom) := by
  rw [rngFor_replicate_one]
  cases hN : readNames [0, 1] ⟨⟨"", 0⟩, ⟨"", 0⟩⟩ stdin with
  | error e =>
    have hm : main fuel (List.replicate n 0) stdin =
        (startGame ⟨⟨"", 0⟩, ⟨"", 0⟩⟩ (List.replicate n 0) stdin [Event.rules], .halted e) := by
      simp only [main, hN]
    rw [hm]
    refine ⟨fun h => (by cases h), fun i => (by fin_cases i <;> rfl), Nat.zero_le _,
      fun hv => ?_⟩
    obtain ⟨v, hv⟩ := hv
    cases hv
  | ok v =>
    obtain ⟨ps, rest, out⟩ := v
    obtain ⟨hm, hs⟩ := main_of_names fuel (List.replicate n 0) stdin rest ps out hN
    obtain ⟨c1, c2, c3, c4⟩ := gameLoop_all_ones fuel n
      (startGame ps (List.replicate n 0) rest (Event.rules :: out)) hs rfl
    rw [hm]
    refine ⟨c1, c2, by simpa [startGame] using c3, fun _ hn => ?_⟩
    obtain ⟨d1, d2⟩ := c4 hn
    exact ⟨by simpa [startGame] using d1, d2⟩

/-- C17 at seven rolls of 1 with the names Ann and Bob: seven turns are played,
nobody has won and both scores are 0. -/
theorem game_need_not_end_witness :
    (∃ v, readNames [0, 1] ⟨⟨"", 0⟩, ⟨"", 0⟩⟩ [line "Ann\n", line "Bob\n"] = .ok v) ∧
    7 < 2 * 4 ∧
    (main 4 (rngFor (List.replicate 7 1)) [line "Ann\n", line "Bob\n"]).1.turns.length = 7 ∧
    (main 4 (rngFor (List.replicate 7 1)) [line "Ann\n", line "Bob\n"]).2 =
      .halted .noRandom ∧
    (main 4 (rngFor (List.replicate 7 1)) [line "Ann\n", line "Bob\n"]).1.player =
      ⟨⟨"Ann", 0⟩, ⟨"Bob", 0⟩⟩ :=
  ⟨⟨_, rfl⟩, by decide,
    ((game_need_not_end 7 4 [line "Ann\n", line "Bob\n"]).2.2.2 ⟨_, rfl⟩ (by decide)).1,
    ((game_need_not_end 7 4 [line "Ann\n", line "Bob\n"]).2.2.2 ⟨_, rfl⟩ (by decide)).2,
    by decide⟩

/-! ## The history is made of what `playTurn` returned -/

/-- `askHold` stops without an answer only for lack of input. -/
theorem askHold_error : ∀ (s : List ReadResult) (e : Halt), askHold s = .error e →
    e = .noInput
  | [], e, h => by
    simp only [askHold, Except.error.injEq] at h
    exact h.symm
  | r :: s, e, h => by
    have step : ∀ (c : Event),
        (match askHold s with
          | .error e => (.error e : Except Halt (Bool × List ReadResult × List Event))
          | .ok (hold, rest, out) => .ok (hold, rest, Event.holdPrompt :: c :: out)) =
          .error e → e = .noInput := by
      intro c h
      cases hA : askHold s with
      | error e1 =>
        rw [hA] at h
        cases h
        exact askHold_error s e hA
      | ok v => rw [hA] at h; cases h
    by_cases hf : r.failed = true
    · rw [askHold_failed r s hf] at h
      exact step _ h
    · have hf : r.failed = false := by simpa using hf
      by_cases hh : trimSpace r.text = "h"
      · rw [askHold_h r s hf hh] at h; cases h
      · by_cases hr : trimSpace r.text = "r"
        · rw [askHold_r r s hf hr] at h; cases h
        · rw [askHold_other r s hf hh hr] at h
          exact step _ h

/-- The roll loop stops without a result only for lack of die values or of
input. -/
theorem playTurnLoop_error (name : String) (score : Int) :
    ∀ (rng : List Int) (t : Int) (stdin : List ReadResult) (e : Halt),
    playTurnLoop name score t rng stdin = .error e → e = .noInput ∨ e = .noRandom
  | [], _, _, e, h => by
    simp only [playTurnLoop, Except.error.injEq] at h
    exact Or.inr h.symm
  | g :: rng, t, stdin, e, h => by
    rw [playTurnLoop_cons] at h
    by_cases hg : g + 1 = 1
    · rw [if_pos hg] at h; cases h
    · rw [if_neg hg] at h
      cases hA : askHold stdin with
      | error e1 =>
        rw [hA] at h
        cases h
        exact Or.inl (askHold_error stdin e hA)
      | ok v =>
        obtain ⟨hold, stdin1, asked⟩ := v
        rw [hA] at h
        cases hold with
        | true => simp only [if_true] at h; cases h
        | false =>
          simp only [Bool.false_eq_true, if_false] at h
          cases hR : playTurnLoop name score (t + (g + 1)) rng stdin1 with
          | error e1 =>
            rw [hR] at h
            cases h
            exact playTurnLoop_error name score rng _ stdin1 e hR
          | ok res => rw [hR] at h; cases h

/-- `playTurn` never stops for lack of fuel: it has none to run out of. -/
theorem playTurn_error_ne_outOfFuel (name : String) (score : Int) (rng : List Int)
    (stdin : List ReadResult) (e : Halt) (h : playTurn name score rng stdin = .error e) :
    e ≠ .outOfFuel := by
  unfold playTurn at h
  cases hR : playTurnLoop name score 0 rng stdin with
  | error e1 =>
    rw [hR] at h
    cases h
    rcases playTurnLoop_error name score rng 0 stdin e hR with h1 | h1 <;> rw [h1] <;> decide
  | ok res => rw [hR] at h; cases h

/-- Replaying a history with one more turn: replay the history, then the turn. -/
theorem replay_concat (rec : TurnRecord) : ∀ (recs : List TurnRecord) (ps ps1 : Players)
    (rng rng1 : List Int) (stdin stdin1 : List ReadResult),
    replay recs ps rng stdin = some (ps1, rng1, stdin1) →
    replay (recs ++ [rec]) ps rng stdin = replay [rec] ps1 rng1 stdin1
  | [], ps, ps1, rng, rng1, stdin, stdin1, h => by
    simp only [replay, Option.some.injEq, Prod.mk.injEq] at h
    obtain ⟨h1, h2, h3⟩ := h
    subst h1 h2 h3
    rfl
  | r :: recs, ps, ps1, rng, rng1, stdin, stdin1, h => by
    rw [replay] at h
    rw [List.cons_append, replay]
    cases hP : playTurn (ps.get r.num).name (ps.get r.num).score rng stdin with
    | error e => rw [hP] at h; cases h
    | ok res =>
      rw [hP] at h
      simp only at h ⊢
      by_cases hc : r.before = ps ∧ r.total = res.turnTotal
      · rw [if_pos hc] at h ⊢
        exact replay_concat rec recs _ ps1 _ rng1 _ stdin1 h
      · rw [if_neg hc] at h; cases h

/-- Replaying the record of a turn that `playTurn` completed. -/
theorem replay_single (num : Fin 2) (ps : Players) (rng : List Int) (stdin : List ReadResult)
    (res : TurnResult)
    (h : playTurn (ps.get num).name (ps.get num).score rng stdin = .ok res) :
    replay [⟨num, ps, res.turnTotal⟩] ps rng stdin =
      some (ps.set num { ps.get num with score := (ps.get num).score + res.turnTotal },
        res.rng, res.stdin) := by
  simp [replay, h]

/-- One turn of the game loop keeps the history replayable. Either `playTurn`
stopped without a result, for a reason other than fuel, and the game is as it
was; or the turn was completed, the game is won or running, and the history,
one turn longer, replays to the new player array and channels. -/
theorem turn_history (ps0 : Players) (rng0 : List Int) (stdin0 : List ReadResult)
    (num : Fin 2) (g : Game)
    (hrep : replay g.turns ps0 rng0 stdin0 = some (g.player, g.rng, g.stdin)) :
    (∃ e, turn num g = (g, .halted e) ∧ e ≠ .outOfFuel ∧
      playTurn (g.player.get num).name (g.player.get num).score g.rng g.stdin = .error e) ∨
    (((turn num g).2 = .won ∨ (turn num g).2 = .running) ∧
      (turn num g).1.turns.length = g.turns.length + 1 ∧
      replay (turn num g).1.turns ps0 rng0 stdin0 =
        some ((turn num g).1.player, (turn num g).1.rng, (turn num g).1.stdin)) := by
  rcases turn_cases num g with ⟨e, hP, hT⟩ | ⟨res, g1, hP, hT, hp, hr, hs, ht⟩
  · exact Or.inl ⟨e, hT, playTurn_error_ne_outOfFuel _ _ _ _ e hP, hP⟩
  · right
    have hg1 : turn num g = (g1, (turn num g).2) := by
      rcases hT with ⟨hT, _⟩ | ⟨hT, _⟩ <;> rw [hT]
    have hst : (turn num g).2 = .won ∨ (turn num g).2 = .running := by
      rcases hT with ⟨hT, _⟩ | ⟨hT, _⟩ <;> rw [hT]
      · exact Or.inl rfl
      · exact Or.inr rfl
    refine ⟨hst, ?_, ?_⟩
    · rw [hg1]
      show g1.turns.length = _
      rw [ht]; simp
    · rw [hg1]
      show replay g1.turns ps0 rng0 stdin0 = some (g1.player, g1.rng, g1.stdin)
      rw [ht, replay_concat _ _ _ _ _ _ _ _ hrep, replay_single num g.player g.rng g.stdin res hP,
        hp, hr, hs]

theorem nextPlayer_eq (g : Game) (num : Fin 2) (h : g.turns.length % 2 = num.val) :
    nextPlayer g = num :=
  Fin.ext h

/-- The game loop keeps the history replayable and stops only for a reason: it
never returns a game that is still running; it runs out of fuel only after two
turns per unit of fuel; and when it halts for another reason, that is the
reason for which `playTurn` gave no result to the player whose turn it was. -/
theorem gameLoop_history (ps0 : Players) (rng0 : List Int) (stdin0 : List ReadResult) :
    ∀ (fuel : Nat) (g : Game), g.turns.length % 2 = 0 →
    replay g.turns ps0 rng0 stdin0 = some (g.player, g.rng, g.stdin) →
    replay (gameLoop fuel g).1.turns ps0 rng0 stdin0 =
      some ((gameLoop fuel g).1.player, (gameLoop fuel g).1.rng, (gameLoop fuel g).1.stdin) ∧
    (gameLoop fuel g).2 ≠ .running ∧
    ((gameLoop fuel g).2 = .halted .outOfFuel →
      (gameLoop fuel g).1.turns.length = g.turns.length + 2 * fuel) ∧
    (∀ e, (gameLoop fuel g).2 = .halted e → e ≠ .outOfFuel →
      playTurn ((gameLoop fuel g).1.player.get (nextPlayer (gameLoop fuel g).1)).name
        ((gameLoop fuel g).1.player.get (nextPlayer (gameLoop fuel g).1)).score
        (gameLoop fuel g).1.rng (gameLoop fuel g).1.stdin = .error e)
  | 0, g, _, hrep =>
    ⟨hrep, fun h => (by cases h), fun _ => rfl,
      fun e he hne => absurd (by cases he; rfl) hne⟩
  | fuel + 1, g, hlen, hrep => by
    have stop : ∀ (num : Fin 2) (x : Game), x.turns.length % 2 = num.val →
        replay x.turns ps0 rng0 stdin0 = some (x.player, x.rng, x.stdin) →
        (turn num x).2 ≠ .running →
        replay (turn num x).1.turns ps0 rng0 stdin0 =
          some ((turn num x).1.player, (turn num x).1.rng, (turn num x).1.stdin) ∧
        (turn num x).2 ≠ .halted .outOfFuel ∧
        (∀ e, (turn num x).2 = .halted e → e ≠ .outOfFuel →
          playTurn ((turn num x).1.player.get (nextPlayer (turn num x).1)).name
            ((turn num x).1.player.get (nextPlayer (turn num x).1)).score
            (turn num x).1.rng (turn num x).1.stdin = .error e) := by
      intro num x hx hrx hnr
      rcases turn_history ps0 rng0 stdin0 num x hrx with ⟨e, hT, hne, hP⟩ | ⟨hst, _, hr1⟩
      · rw [hT]
        refine ⟨hrx, fun hc => ?_, fun e1 he1 _ => ?_⟩
        · cases hc; exact hne rfl
        · cases he1
          show playTurn (x.player.get (nextPlayer x)).name _ x.rng x.stdin = _
          rw [nextPlayer_eq x num hx]
          exact hP
      · rcases hst with hw | hr
        · exact ⟨hr1, fun hc => (by rw [hw] at hc; cases hc),
            fun e he _ => (by rw [hw] at he; cases he)⟩
        · exact absurd hr hnr
    rw [gameLoop_succ]
    by_cases c0 : (turn 0 g).2 = .running
    · rw [if_pos c0]
      rcases turn_history ps0 rng0 stdin0 0 g hrep with ⟨e, hT, _, _⟩ | ⟨_, hl0, hr0⟩
      · rw [hT] at c0; cases c0
      · have hlen1 : (turn 0 g).1.turns.length % 2 = (1 : Fin 2).val := by
          rw [hl0]; show _ = 1; omega
        by_cases c1 : (turn 1 (turn 0 g).1).2 = .running
        · rw [if_pos c1]
          rcases turn_history ps0 rng0 stdin0 1 (turn 0 g).1 hr0 with
            ⟨e, hT, _, _⟩ | ⟨_, hl1, hr1⟩
          · rw [hT] at c1; cases c1
          · have hlen2 : (turn 1 (turn 0 g).1).1.turns.length % 2 = 0 := by
              rw [hl1, hl0]; omega
            obtain ⟨a1, a2, a3, a4⟩ :=
              gameLoop_history ps0 rng0 stdin0 fuel (turn 1 (turn 0 g).1).1 hlen2 hr1
            refine ⟨a1, a2, fun hf => ?_, a4⟩
            rw [a3 hf, hl1, hl0]
            omega
        · rw [if_neg c1]
          obtain ⟨b1, b2, b3⟩ := stop 1 (turn 0 g).1 hlen1 hr0 c1
          exact ⟨b1, c1, fun hf => absurd hf b2, b3⟩
    · rw [if_neg c0]
      obtain ⟨b1, b2, b3⟩ := stop 0 g hlen hrep c0
      exact ⟨b1, c0, fun hf => absurd hf b2, b3⟩

/-! ## Claim about the scores and the values `playTurn` returned -/

/-- C8. Score is the sum of banked turn totals. When the game loop of `main` is
entered both scores are 0 and no turn is recorded, and at any later time each
player's score is the sum of the totals recorded for that player's own turns.
The recorded totals are the values `playTurn` returned: once the two names are
read, replaying the history, that is calling `playTurn` for each recorded
player in order and adding the value it returns to that player's score, gives
exactly the player array, the generator values and the input `main` ends
with. The loop plays its turns: it never returns a game still running; it runs
out of fuel only after two turns per unit of fuel; it halts for another reason
only when `playTurn` gave no result to the player whose turn it was; and it
ends with a winner only after a turn that brought its player to 100 or more. -/
theorem score_is_sum_of_banked (fuel : Nat) (rng : List Int) (stdin : List ReadResult)
    (i : Fin 2) :
    ((main 0 rng stdin).1.player.get i).score = 0 ∧
    (main 0 rng stdin).1.turns = [] ∧
    ((main fuel rng stdin).1.player.get i).score = banked (main fuel rng stdin).1.turns i ∧
    (∀ (ps : Players) (rest : List ReadResult) (out : List Event),
      readNames [0, 1] ⟨⟨"", 0⟩, ⟨"", 0⟩⟩ stdin = .ok (ps, rest, out) →
      replay (main fuel rng stdin).1.turns ps rng rest =
        some ((main fuel rng stdin).1.player, (main fuel rng stdin).1.rng,
          (main fuel rng stdin).1.stdin) ∧
      (main fuel rng stdin).2 ≠ .running ∧
      ((main fuel rng stdin).2 = .halted .outOfFuel →
        (main fuel rng stdin).1.turns.length = 2 * fuel) ∧
      (∀ e, (main fuel rng stdin).2 = .halted e → e ≠ .outOfFuel →
        playTurn ((main fuel rng stdin).1.player.get (nextPlayer (main fuel rng stdin).1)).name
          ((main fuel rng stdin).1.player.get (nextPlayer (main fuel rng stdin).1)).score
          (main fuel rng stdin).1.rng (main fuel rng stdin).1.stdin = .error e) ∧
      ((main fuel rng stdin).2 = .won →
        ∃ rec, (main fuel rng stdin).1.turns.getLast? = some rec ∧
          100 ≤ ((main fuel rng stdin).1.player.get rec.num).score)) := by
  have key : ∀ f, ((main f rng stdin).1.player.get i).score =
      banked (main f rng stdin).1.turns i := by
    intro f
    obtain ⟨g0, ht, hs, _, hm | ⟨e, hm⟩⟩ := main_cases f rng stdin
    · rw [hm]
      exact gameLoop_banked f g0 (fun j => by rw [hs j, ht]; rfl) i
    · rw [hm]
      show (g0.player.get i).score = banked g0.turns i
      rw [hs i, ht]; rfl
  refine ⟨?_, ?_, key fuel, fun ps rest out hN => ?_⟩
  · obtain ⟨g0, _, hs, _, hm | ⟨e, hm⟩⟩ := main_cases 0 rng stdin <;> rw [hm] <;> exact hs i
  · obtain ⟨g0, ht, _, _, hm | ⟨e, hm⟩⟩ := main_cases 0 rng stdin <;> rw [hm] <;> exact ht
  · have hwon := (main_stopped_properly fuel rng stdin).2.1
    obtain ⟨hm, _⟩ := main_of_names fuel rng stdin rest ps out hN
    obtain ⟨a1, a2, a3, a4⟩ := gameLoop_history ps rng rest fuel
      (startGame ps rng rest (Event.rules :: out)) rfl rfl
    rw [hm] at hwon ⊢
    refine ⟨a1, a2, fun hf => ?_, a4, fun hw => ?_⟩
    · rw [a3 hf]; simp [startGame]
    · obtain ⟨rec, h1, _, h3, _⟩ := hwon hw
      exact ⟨rec, h1, h3⟩

/-- C8 at the session of Ann and Bob with the die outcomes 5, 3, 1, 2, 1: the
names are read, `playTurn` returns 8, 0, 2, 0 in the four turns, Ann's score is
8 + 2 = 10 and Bob's 0 + 0 = 0; the history replays to that final state, and
the loop halted because the die values ran out for Ann's third turn. -/
theorem score_is_sum_of_banked_witness :
    readNames [0, 1] ⟨⟨"", 0⟩, ⟨"", 0⟩⟩ sessionInput =
      .ok (⟨⟨"Ann", 0⟩, ⟨"Bob", 0⟩⟩,
        [line "r\n", line "h\n", line "what?\n", line "h\n"],
        [.namePrompt 1, .playerName 1 "Ann", .namePrompt 2, .playerName 2 "Bob"]) ∧
    ((main 3 (rngFor [5, 3, 1, 2, 1]) sessionInput).1.turns.map fun r => (r.num, r.total)) =
      [(0, 8), (1, 0), (0, 2), (1, 0)] ∧
    (main 3 (rngFor [5, 3, 1, 2, 1]) sessionInput).1.player = ⟨⟨"Ann", 10⟩, ⟨"Bob", 0⟩⟩ ∧
    (main 3 (rngFor [5, 3, 1, 2, 1]) sessionInput).2 = .halted .noRandom ∧
    ((main 3 (rngFor [5, 3, 1, 2, 1]) sessionInput).1.player.get 0).score =
      banked (main 3 (rngFor [5, 3, 1, 2, 1]) sessionInput).1.turns 0 ∧
    replay (main 3 (rngFor [5, 3, 1, 2, 1]) sessionInput).1.turns ⟨⟨"Ann", 0⟩, ⟨"Bob", 0⟩⟩
        (rngFor [5, 3, 1, 2, 1]) [line "r\n", line "h\n", line "what?\n", line "h\n"] =
      some ((main 3 (rngFor [5, 3, 1, 2, 1]) sessionInput).1.player,
        (main 3 (rngFor [5, 3, 1, 2, 1]) sessionInput).1.rng,
        (main 3 (rngFor [5, 3, 1, 2, 1]) sessionInput).1.stdin) :=
  ⟨by decide, by decide, by decide, by decide,
    (score_is_sum_of_banked 3 (rngFor [5, 3, 1, 2, 1]) sessionInput 0).2.2.1,
    ((score_is_sum_of_banked 3 (rngFor [5, 3, 1, 2, 1]) sessionInput 0).2.2.2
      ⟨⟨"Ann", 0⟩, ⟨"Bob", 0⟩⟩ [line "r\n", line "h\n", line "what?\n", line "h\n"]
      [.namePrompt 1, .playerName 1 "Ann", .namePrompt 2, .playerName 2 "Bob"]
      (by decide)).1⟩

end Pig
